import Mathlib

/-!
# BkIdxMap: a map with a background-built two-level index

A shallow embedding of `BkIndexMap.h` / `BKIndexMap.cpp`.

* `State` is the coordination enumeration of `BkIdxMapBase`.
* `Impl` is the `std::map<K, V>` member `m_impl`, kept as its entries in ascending key order;
  an `Iterator` refers to a node of the map (a node is identified by its key) or is past-the-end.
* `BkIdxMap` carries the members of the class together with the two locals of the index thread
  (`progress`, `lvl2_index`).
* Functions return `Option` where the C++ code has undefined behaviour (dereferencing an
  iterator that refers to no entry, signed overflow, out-of-range element access) or, for the
  sequential reading of `Lock`, where the caller would spin for ever.
* `int` and `std::size_t` values are integers with the conversions `toInt`, `toSizeT` and the
  overflow check `intArith`; the theorems on `Find` and on the index build therefore carry the
  bound that keeps the number of entries within the range of `int`.
* `Sys` interleaves the foreground thread and the index thread at the level of the atomic
  accesses to `m_state`.
-/

namespace BkIdx

/-! ## Coordination state -/

/-- The enumeration `BkIdxMapBase::State`. -/
inductive State where
  | Stable
  | MutateBegin
  | Mutating
  | Mutated
  | Indexing1
  | Indexing2
  | Quit
  | QuitDone
  deriving DecidableEq, Repr

/-! ## The ordered container -/

/-- An iterator of `std::map<K, V>`: it refers to the node holding `key`, or it is `end()`.
A node is identified by its key. An iterator to an erased node is undefined to use while the
key is absent; once the key is inserted anew the embedding treats it as referring to the new
node, where in the program it still dangles. The embedding therefore has every defined run of
the program and some more, so what holds of all its runs holds of the program. -/
inductive Iterator (K : Type) where
  | node (key : K)
  | pastEnd
  deriving DecidableEq, Repr

/-- The container `m_impl`: the entries of the `std::map`, in ascending key order. -/
abbrev Impl (K V : Type) := List (K × V)

namespace Impl

variable {K V : Type} [LinearOrder K]

/-- The keys of the container in iteration order. -/
def keys (m : Impl K V) : List K := m.map Prod.fst

/-- The representation invariant of `std::map`: keys strictly ascending (hence distinct). -/
def WellFormed (m : Impl K V) : Prop := (keys m).Pairwise (· < ·)

instance (m : Impl K V) : Decidable (WellFormed m) := by
  unfold WellFormed; infer_instance

/-- The call `m_impl.insert(std::make_pair(k, v))`: a new node is linked in at its ordered
place; when a node with an equivalent key exists the map is left as it is. -/
def insert : Impl K V → K → V → Impl K V
  | [], k, v => [(k, v)]
  | (k', v') :: rest, k, v =>
    if k < k' then (k, v) :: (k', v') :: rest
    else if k' < k then (k', v') :: insert rest k v
    else (k', v') :: rest

/-- The call `m_impl.erase(k)`: the node with key `k`, if any, is removed. -/
def erase (m : Impl K V) (k : K) : Impl K V := m.filter (fun e => decide (e.1 ≠ k))

/-- The call `m_impl.clear()`. -/
def clear (_m : Impl K V) : Impl K V := []

/-- The call `m_impl.begin()`. -/
def begin : Impl K V → Iterator K
  | [] => Iterator.pastEnd
  | (k, _) :: _ => Iterator.node k

/-- The call `m_impl.find(k)`: the node with key `k`, or `end()`. -/
def find (m : Impl K V) (k : K) : Iterator K :=
  if k ∈ keys m then Iterator.node k else Iterator.pastEnd

/-- The value stored under `k`, if any. -/
def lookup : Impl K V → K → Option V
  | [], _ => none
  | (k', v') :: rest, k => if k' = k then some v' else lookup rest k

/-- Dereferencing an iterator (`it->first`): the key of the node it refers to. Undefined
(`none`) for `end()` and for an iterator whose node is not in the map. -/
def deref (m : Impl K V) : Iterator K → Option K
  | Iterator.pastEnd => none
  | Iterator.node k => if k ∈ keys m then some k else none

/-- The increment `it++`: the iterator to the next node in key order, `end()` after the last
node. Undefined (`none`) for `end()` and for an iterator whose node is not in the map. -/
def next : Impl K V → Iterator K → Option (Iterator K)
  | _, Iterator.pastEnd => none
  | [], Iterator.node _ => none
  | (k', _) :: rest, Iterator.node k =>
    if k' = k then some (begin rest) else next rest (Iterator.node k)

end Impl

/-! ## Machine integers -/

/-- Conversion of an integer value to `int` (32 bit, two's complement). -/
def toInt (x : Int) : Int := (x + 2147483648) % 4294967296 - 2147483648

/-- The result of an arithmetic operation on `int`: undefined (`none`) on overflow. -/
def intArith (x : Int) : Option Int :=
  if -2147483648 ≤ x ∧ x ≤ 2147483647 then some x else none

/-- Conversion of an integer value to `std::size_t` (64 bit, unsigned). -/
def toSizeT (x : Int) : Nat := (x % 18446744073709551616).toNat

/-! ## `std::lower_bound` -/

section LowerBound

variable {K : Type} [LinearOrder K]

/-- The loop of `std::lower_bound` over `v[first .. first + len)`: halve the range, keeping the
first position whose element is not less than `k`. The first argument bounds the number of
iterations; `len` iterations always suffice. -/
def lower_bound_loop (v : List K) (k : K) : Nat → Nat → Nat → Nat
  | 0, first, _ => first
  | fuel + 1, first, len =>
    if len = 0 then first
    else
      let half := len / 2
      let middle := first + half
      match v[middle]? with
      | some x =>
        if x < k then lower_bound_loop v k fuel (middle + 1) (len - half - 1)
        else lower_bound_loop v k fuel first half
      | none => first

/-- The call `std::lower_bound(v.begin() + first, v.begin() + last, k)`, as an offset from
`v.begin()`. -/
def lower_bound (v : List K) (first last : Nat) (k : K) : Nat :=
  lower_bound_loop v k (last - first) first (last - first)

end LowerBound

/-! ## The map and its index -/

/-- The members of `BkIdxMap<K, V>` and the locals `progress`, `lvl2_index` of its index
thread. -/
structure BkIdxMap (K V : Type) where
  m_state : State
  m_impl : Impl K V
  m_index_level1 : List K
  m_index_iter : List (Iterator K)
  m_index_level2 : List K
  progress : Iterator K
  lvl2_index : Int
  deriving DecidableEq, Repr

/-- The constant `BkIdxMap::step`. -/
def step : Int := 256

/-- Where the index thread goes after the statements of a `case`. -/
inductive BgNext where
  /-- Back to the head of the loop (`break`). -/
  | loop
  /-- The pending call `m_state.compare_exchange_strong(expected, desired)`, then `break`. -/
  | cas (expected desired : State)
  /-- Into `priv_lock.Wait()`. -/
  | wait
  /-- The thread function returns. -/
  | exit
  deriving DecidableEq, Repr

namespace BkIdxMap

variable {K V : Type} [LinearOrder K]

/-- A freshly constructed map: `m_state{State::Stable}`, empty container and index arrays,
`lvl2_index{0}`. -/
def fresh : BkIdxMap K V :=
  { m_state := State.Stable, m_impl := [], m_index_level1 := [], m_index_iter := [],
    m_index_level2 := [], progress := Iterator.pastEnd, lvl2_index := 0 }

/-- The member `IsFastIndexAvailable`. -/
def IsFastIndexAvailable (m : BkIdxMap K V) : Bool := decide (m.m_state = State.Stable)

/-- The member `End`. -/
def End (_m : BkIdxMap K V) : Iterator K := Iterator.pastEnd

/-- The member `Begin`. -/
def Begin (m : BkIdxMap K V) : Iterator K := Impl.begin m.m_impl

/-- The member `Size`. -/
def Size (m : BkIdxMap K V) : Nat := m.m_impl.length

/-- The branch of `Find` taken when `IsFastIndexAvailable()`: a `lower_bound` in level 2 picks
a section of at most `step` level-1 keys, a second `lower_bound` searches that section.
`none` stands for undefined behaviour: `int` overflow, a section start outside
`[begin, end]`, or an element access out of range. -/
def FindIndexed (m : BkIdxMap K V) (k : K) : Option (Iterator K) :=
  let size := m.m_index_level1.length
  let found2 := lower_bound m.m_index_level2 0 m.m_index_level2.length k
  (intArith (toInt found2 - 1)).bind fun d =>
  let dist_start := max 0 d
  (intArith (step * dist_start)).bind fun section_start =>
  if 0 ≤ section_start ∧ section_start ≤ size then
    let max_size := min (toSizeT (size - section_start)) (toSizeT step)
    let section_end := section_start.toNat + max_size
    let found := lower_bound m.m_index_level1 section_start.toNat section_end k
    if found = size then some (End m)
    else
      match m.m_index_level1[found]? with
      | none => none
      | some x => if x ≠ k then some (End m) else m.m_index_iter[found]?
  else none

/-- The section of level 1 that the branch of `Find` for `IsFastIndexAvailable()` searches,
and the position its second `lower_bound` returns: `(section_start, section_end, found)` as
offsets from `m_index_level1.begin()`. The statements are those of `FindIndexed` up to
`found`; `none` as there. -/
def FindSection (m : BkIdxMap K V) (k : K) : Option (Nat × Nat × Nat) :=
  let size := m.m_index_level1.length
  let found2 := lower_bound m.m_index_level2 0 m.m_index_level2.length k
  (intArith (toInt found2 - 1)).bind fun d =>
  let dist_start := max 0 d
  (intArith (step * dist_start)).bind fun section_start =>
  if 0 ≤ section_start ∧ section_start ≤ size then
    let max_size := min (toSizeT (size - section_start)) (toSizeT step)
    let section_end := section_start.toNat + max_size
    let found := lower_bound m.m_index_level1 section_start.toNat section_end k
    some (section_start.toNat, section_end, found)
  else none

/-- The member `Find`. -/
def Find (m : BkIdxMap K V) (k : K) : Option (Iterator K) :=
  if IsFastIndexAvailable m then FindIndexed m k
  else some (Impl.find m.m_impl k)

/-! ### Foreground operations, read sequentially (no step of the index thread in between) -/

/-- The function `BkIdxMapBase::Lock`. Unless the state is `Mutating` it returns at once and
leaves the state alone. In state `Mutating` it stores `MutateBegin` and spins until the index
thread answers with `Stable`; read sequentially that call does not return (`none`). -/
def Lock (m : BkIdxMap K V) : Option (BkIdxMap K V) :=
  if m.m_state = State.Mutating then none else some m

/-- The function `BkIdxMapBase::Unlock`. -/
def Unlock (m : BkIdxMap K V) : BkIdxMap K V := { m with m_state := State.Mutated }

/-- The member `Add`: `LockRAII lock(*this); m_impl.insert(std::make_pair(k, v));`. -/
def Add (m : BkIdxMap K V) (k : K) (v : V) : Option (BkIdxMap K V) :=
  (Lock m).map fun m1 => Unlock { m1 with m_impl := Impl.insert m1.m_impl k v }

/-- The member `Remove`: `LockRAII lock(*this); m_impl.erase(k);`. -/
def Remove (m : BkIdxMap K V) (k : K) : Option (BkIdxMap K V) :=
  (Lock m).map fun m1 => Unlock { m1 with m_impl := Impl.erase m1.m_impl k }

/-- The member `Clear`: `LockRAII lock(*this); m_impl.clear();`. -/
def Clear (m : BkIdxMap K V) : Option (BkIdxMap K V) :=
  (Lock m).map fun m1 => Unlock { m1 with m_impl := Impl.clear m1.m_impl }

/-- The member `PerformLocked`: `LockRAII lock(*this); fn();`, the callable `fn` acting on the
map and possibly not returning. -/
def PerformLocked (m : BkIdxMap K V) (fn : BkIdxMap K V → Option (BkIdxMap K V)) :
    Option (BkIdxMap K V) :=
  (Lock m).bind fun m1 => (fn m1).map Unlock

/-! ### The index thread -/

/-- The call `m_state.compare_exchange_strong(expected, desired)`. -/
def compare_exchange_strong (m : BkIdxMap K V) (expected desired : State) : BkIdxMap K V :=
  if m.m_state = expected then { m with m_state := desired } else m

/-- The statements of the `case` selected by `switch(m_state)` when the value read is `seen`,
up to but not including a final `compare_exchange_strong`. `none` is undefined behaviour:
`progress` dereferenced or incremented while it refers to no entry, or `int` overflow. -/
def caseBody (seen : State) (m : BkIdxMap K V) : Option (BkIdxMap K V × BgNext) :=
  match seen with
  | State.Quit => some ({ m with m_state := State.QuitDone }, BgNext.exit)
  | State.MutateBegin =>
    some ({ m with progress := Iterator.pastEnd, m_state := State.Stable }, BgNext.loop)
  | State.QuitDone => some (m, BgNext.loop)
  | State.Mutating => some (m, BgNext.wait)
  | State.Stable => some (m, BgNext.wait)
  | State.Mutated =>
    some ({ m with m_index_level1 := [], m_index_iter := [],
                   progress := Impl.begin m.m_impl },
          BgNext.cas State.Mutated State.Indexing1)
  | State.Indexing1 =>
    (Impl.deref m.m_impl m.progress).bind fun key =>
    (Impl.next m.m_impl m.progress).bind fun progress1 =>
    let m1 := { m with m_index_level1 := m.m_index_level1 ++ [key],
                       m_index_iter := m.m_index_iter ++ [m.progress],
                       progress := progress1 }
    if progress1 = Iterator.pastEnd then
      some ({ m1 with lvl2_index := 0, m_index_level2 := [] },
            BgNext.cas State.Indexing1 State.Indexing2)
    else some (m1, BgNext.loop)
  | State.Indexing2 =>
    if toSizeT m.lvl2_index ≥ m.m_index_level1.length then
      some (m, BgNext.cas State.Indexing2 State.Stable)
    else
      (m.m_index_level1[toSizeT m.lvl2_index]?).bind fun key =>
      (intArith (m.lvl2_index + step)).bind fun lvl2_index1 =>
      some ({ m with m_index_level2 := m.m_index_level2 ++ [key], lvl2_index := lvl2_index1 },
            BgNext.loop)

/-- One iteration of the loop of the index thread, run without a foreground step between the
read of `m_state` in the `switch` and the end of the `case`. -/
def loopIteration (m : BkIdxMap K V) : Option (BkIdxMap K V) :=
  (caseBody m.m_state m).map fun r =>
    match r.2 with
    | BgNext.cas expected desired => compare_exchange_strong r.1 expected desired
    | _ => r.1

/-- The index thread running alone for `n` loop iterations. -/
def loopIterations : Nat → BkIdxMap K V → Option (BkIdxMap K V)
  | 0, m => some m
  | n + 1, m => (loopIteration m).bind (loopIterations n)

/-- The index thread running alone until `m_state` is `Stable`, for at most `fuel` loop
iterations; `none` when the state is not `Stable` by then or the behaviour is undefined. -/
def runUntilStable : Nat → BkIdxMap K V → Option (BkIdxMap K V)
  | 0, m => if m.m_state = State.Stable then some m else none
  | fuel + 1, m =>
    if m.m_state = State.Stable then some m
    else (loopIteration m).bind (runUntilStable fuel)

end BkIdxMap

/-! ## The two threads, interleaved -/

/-- The atomic steps a foreground call is made of. -/
inductive Instr (K V : Type) where
  /-- The call `Lock()`. -/
  | lock
  /-- The call `Unlock()`. -/
  | unlock
  /-- The call `m_impl.insert(std::make_pair(k, v))`. -/
  | insert (k : K) (v : V)
  /-- The call `m_impl.erase(k)`. -/
  | erase (k : K)
  /-- The call `m_impl.clear()`. -/
  | clear
  /-- The body of `Find(k)`. -/
  | find (k : K)
  /-- The store `m_state = State::Quit`. -/
  | storeQuit
  /-- The loop `while (m_state != State::QuitDone);` of the destructor. -/
  | awaitQuitDone
  /-- The call `m_idxThread.join()`. -/
  | join
  deriving DecidableEq, Repr

/-- A call of a public member by the foreground thread; the callable given to `PerformLocked`
is the list of calls it makes. -/
inductive Op (K V : Type) where
  | Add (k : K) (v : V)
  | Remove (k : K)
  | Clear
  | Find (k : K)
  | PerformLocked (fn : List (Op K V))
  | DisableIndexing
  | Destroy

mutual
/-- The atomic steps of a call, in program order. The destructor tests `joinable()` first. -/
def Op.code {K V : Type} (joinable : Bool) : Op K V → List (Instr K V)
  | Op.Add k v => [Instr.lock, Instr.insert k v, Instr.unlock]
  | Op.Remove k => [Instr.lock, Instr.erase k, Instr.unlock]
  | Op.Clear => [Instr.lock, Instr.clear, Instr.unlock]
  | Op.Find k => [Instr.find k]
  | Op.PerformLocked fn => Instr.lock :: (Op.codeList joinable fn ++ [Instr.unlock])
  | Op.DisableIndexing => [Instr.storeQuit, Instr.join]
  | Op.Destroy =>
    if joinable then [Instr.storeQuit, Instr.awaitQuitDone, Instr.join] else []
/-- The atomic steps of a sequence of calls. -/
def Op.codeList {K V : Type} (joinable : Bool) : List (Op K V) → List (Instr K V)
  | [] => []
  | op :: rest => Op.code joinable op ++ Op.codeList joinable rest
end

/-- The place of the foreground thread inside `Lock()`. -/
inductive LockPc where
  /-- At the test `m_state == State::Mutating`. -/
  | enter
  /-- Before the store `m_state = State::MutateBegin`. -/
  | announce
  /-- In the loop `while (m_state != State::Stable);`. -/
  | spin
  /-- Before the store `m_state = State::Mutating`. -/
  | claim
  deriving DecidableEq, Repr

/-- The place of the index thread in its loop. -/
inductive BgPc where
  /-- At `switch(m_state)`, about to read the state. -/
  | atSwitch
  /-- The state has been read as `seen`; the statements of that `case` come next. -/
  | inCase (seen : State)
  /-- Before `m_state.compare_exchange_strong(expected, desired)`. -/
  | atCas (expected desired : State)
  /-- In the loop of `LockPrivate::Wait`. -/
  | inWait
  /-- The thread function has returned. -/
  | finished
  deriving DecidableEq, Repr

/-- The map shared by the two threads, with the place each thread is at. -/
structure Sys (K V : Type) where
  map : BkIdxMap K V
  /-- The index thread. -/
  bg : BgPc
  /-- The steps the foreground thread has still to take in its current call. -/
  fg : List (Instr K V)
  lockPc : LockPc
  /-- Whether `m_idxThread.joinable()`. -/
  joinable : Bool
  /-- What the last `Find` returned. -/
  found : Option (Iterator K)
  deriving DecidableEq, Repr

/-- A step of the interleaving: the foreground starts a call, the foreground takes its next
atomic step, or the index thread takes its next atomic step. -/
inductive Action (K V : Type) where
  | call (op : Op K V)
  | fg
  | bg

namespace Sys

variable {K V : Type} [LinearOrder K]

/-- The system after construction of the map: the index thread has been started. -/
def init : Sys K V :=
  { map := BkIdxMap.fresh, bg := BgPc.atSwitch, fg := [], lockPc := LockPc.enter,
    joinable := true, found := none }

/-- The next atomic step of the foreground thread; `none` when it has no call in progress or
the step is undefined. A pass through a spin loop that does not leave it changes nothing. -/
def fgStep (s : Sys K V) : Option (Sys K V) :=
  match s.fg with
  | [] => none
  | Instr.lock :: rest =>
    match s.lockPc with
    | LockPc.enter =>
      if s.map.m_state = State.Mutating then some { s with lockPc := LockPc.announce }
      else some { s with fg := rest }
    | LockPc.announce =>
      some { s with map := { s.map with m_state := State.MutateBegin }, lockPc := LockPc.spin }
    | LockPc.spin =>
      if s.map.m_state ≠ State.Stable then some s else some { s with lockPc := LockPc.claim }
    | LockPc.claim =>
      some { s with map := { s.map with m_state := State.Mutating }, lockPc := LockPc.enter,
                    fg := rest }
  | Instr.unlock :: rest => some { s with map := BkIdxMap.Unlock s.map, fg := rest }
  | Instr.insert k v :: rest =>
    some { s with map := { s.map with m_impl := Impl.insert s.map.m_impl k v }, fg := rest }
  | Instr.erase k :: rest =>
    some { s with map := { s.map with m_impl := Impl.erase s.map.m_impl k }, fg := rest }
  | Instr.clear :: rest =>
    some { s with map := { s.map with m_impl := Impl.clear s.map.m_impl }, fg := rest }
  | Instr.find k :: rest =>
    (BkIdxMap.Find s.map k).map fun it => { s with found := some it, fg := rest }
  | Instr.storeQuit :: rest =>
    some { s with map := { s.map with m_state := State.Quit }, fg := rest }
  | Instr.awaitQuitDone :: rest =>
    if s.map.m_state ≠ State.QuitDone then some s else some { s with fg := rest }
  | Instr.join :: rest =>
    if s.joinable then
      (if s.bg = BgPc.finished then some { s with joinable := false, fg := rest } else some s)
    else none

/-- The next atomic step of the index thread; `none` when the thread has finished or the step
is undefined. -/
def bgStep (s : Sys K V) : Option (Sys K V) :=
  match s.bg with
  | BgPc.atSwitch => some { s with bg := BgPc.inCase s.map.m_state }
  | BgPc.inCase seen =>
    (BkIdxMap.caseBody seen s.map).map fun r =>
      match r.2 with
      | BgNext.loop => { s with map := r.1, bg := BgPc.atSwitch }
      | BgNext.cas expected desired => { s with map := r.1, bg := BgPc.atCas expected desired }
      | BgNext.wait => { s with map := r.1, bg := BgPc.inWait }
      | BgNext.exit => { s with map := r.1, bg := BgPc.finished }
  | BgPc.atCas expected desired =>
    some { s with map := BkIdxMap.compare_exchange_strong s.map expected desired,
                  bg := BgPc.atSwitch }
  | BgPc.inWait =>
    if s.map.m_state = State.Stable then some s else some { s with bg := BgPc.atSwitch }
  | BgPc.finished => none

/-- One step of the interleaving. A call can start only when the previous one has returned. -/
def step (s : Sys K V) : Action K V → Option (Sys K V)
  | Action.call op => if s.fg.isEmpty then some { s with fg := Op.code s.joinable op } else none
  | Action.fg => fgStep s
  | Action.bg => bgStep s

/-- A sequence of steps of the interleaving. -/
def run (s : Sys K V) : List (Action K V) → Option (Sys K V)
  | [] => some s
  | a :: rest => (step s a).bind fun s1 => run s1 rest

/-- The states the system can be in: those some interleaving leads to from `init`. -/
def Reachable (s : Sys K V) : Prop := ∃ acts, run init acts = some s

end Sys

/-! ## Specification predicates and sample data -/

section Plain

variable {K V : Type}

/-- The atomic steps of Add, Remove, Clear, Find and PerformLocked: all but the steps of
DisableIndexing and of the destructor. -/
def Instr.isPlain : Instr K V → Bool
  | Instr.storeQuit => false
  | Instr.awaitQuitDone => false
  | Instr.join => false
  | _ => true

mutual
/-- The calls Add, Remove, Clear, Find, and PerformLocked of a callable that makes only such
calls. -/
def Op.isPlain : Op K V → Bool
  | Op.PerformLocked fn => Op.allPlain fn
  | Op.DisableIndexing => false
  | Op.Destroy => false
  | _ => true
/-- Every call of the list is plain. -/
def Op.allPlain : List (Op K V) → Bool
  | [] => true
  | op :: rest => Op.isPlain op && Op.allPlain rest
end

/-- A step of the interleaving that starts no call other than a plain one. -/
def Action.isPlain : Action K V → Bool
  | Action.call op => Op.isPlain op
  | _ => true

/-- The schedule on which the foreground makes the given calls one after the other, each run to
its return, with no step of the index thread. -/
def Op.schedule (joinable : Bool) : List (Op K V) → List (Action K V)
  | [] => []
  | op :: rest =>
    Action.call op :: (List.replicate (Op.code joinable op).length Action.fg ++
      Op.schedule joinable rest)

end Plain

/-- A call of one of the mutating members by the foreground thread. -/
inductive Mutator (K V : Type) where
  | Add (k : K) (v : V)
  | Remove (k : K)
  | Clear
  deriving DecidableEq, Repr

section Spec

variable {K V : Type} [LinearOrder K]

/-- Level 2 is the sample of level 1 taken at every 256th position from position 0: it has
`ceil(n / 256)` keys and its `j`-th key is the key at position `256 * j` of level 1. -/
def SampledEvery (level1 level2 : List K) : Prop :=
  level2.length = (level1.length + 255) / 256 ∧
    ∀ j, j < level2.length → level2[j]? = level1[256 * j]?

instance (level1 level2 : List K) : Decidable (SampledEvery level1 level2) := by
  unfold SampledEvery; infer_instance

/-- What holds of the system once the index thread has finished after DisableIndexing and the
foreground makes only plain calls. -/
def Quiesced (s : Sys K V) : Prop :=
  s.bg = BgPc.finished ∧ (s.map.m_state = State.QuitDone ∨ s.map.m_state = State.Mutated) ∧
    s.lockPc = LockPc.enter ∧ ∀ i ∈ s.fg, Instr.isPlain i = true

/-- The iterator to the `j`-th node of the container in key order, `end()` when there are
no more than `j` nodes. -/
def Impl.iterAt (m : Impl K V) (j : Nat) : Iterator K :=
  match (Impl.keys m)[j]? with
  | some k => Iterator.node k
  | none => Iterator.pastEnd

/-- What the map looks like `t` loop iterations into a build started in state Mutated on the
map `m` with no foreground step: first the Mutated case, then one Indexing1 iteration for each
entry, then one Indexing2 iteration for each sampled key, then the change to Stable. -/
def BuildPhase (m : BkIdxMap K V) (t : Nat) (m1 : BkIdxMap K V) : Prop :=
  m1.m_impl = m.m_impl ∧
    if t = 0 then m1.m_state = State.Mutated
    else if t ≤ m.m_impl.length then
      m1.m_state = State.Indexing1 ∧
        m1.m_index_level1 = (Impl.keys m.m_impl).take (t - 1) ∧
        m1.m_index_iter = ((Impl.keys m.m_impl).take (t - 1)).map Iterator.node ∧
        m1.progress = Impl.iterAt m.m_impl (t - 1)
    else
      m1.m_index_level1 = Impl.keys m.m_impl ∧
        m1.m_index_iter = (Impl.keys m.m_impl).map Iterator.node ∧
        if t ≤ m.m_impl.length + 1 + (m.m_impl.length + 255) / 256 then
          m1.m_state = State.Indexing2 ∧
            m1.lvl2_index = ((256 * (t - m.m_impl.length - 1) : Nat) : Int) ∧
            m1.m_index_level2.length = t - m.m_impl.length - 1 ∧
            ∀ j, j < t - m.m_impl.length - 1 →
              m1.m_index_level2[j]? = (Impl.keys m.m_impl)[256 * j]?
        else
          m1.m_state = State.Stable ∧ SampledEvery (Impl.keys m.m_impl) m1.m_index_level2

/-- The loop `for (..) map.Add(k, v);` of the tests: the entries are added one call after the
other, with no step of the index thread in between. -/
def AddAll : List (K × V) → BkIdxMap K V → Option (BkIdxMap K V)
  | [], m => some m
  | (k, v) :: rest, m => (BkIdxMap.Add m k v).bind (AddAll rest)

/-- The call, read sequentially. -/
def Mutator.call : Mutator K V → BkIdxMap K V → Option (BkIdxMap K V)
  | Mutator.Add k v, m => BkIdxMap.Add m k v
  | Mutator.Remove k, m => BkIdxMap.Remove m k
  | Mutator.Clear, m => BkIdxMap.Clear m

/-- The calls made one after the other, with no step of the index thread in between. -/
def callAll : List (Mutator K V) → BkIdxMap K V → Option (BkIdxMap K V)
  | [], m => some m
  | c :: rest, m => (Mutator.call c m).bind (callAll rest)

/-- The handshake of `Lock` never starts: the state is neither Mutating nor MutateBegin, the
foreground is not inside the branch of `Lock`, the index thread has read neither of the two
states, and a compare-exchange it has pending is one of the three build transitions. -/
def NoHandshake (s : Sys K V) : Prop :=
  s.map.m_state ≠ State.Mutating ∧ s.map.m_state ≠ State.MutateBegin ∧
    s.lockPc = LockPc.enter ∧
    (∀ seen, s.bg = BgPc.inCase seen → seen ≠ State.Mutating ∧ seen ≠ State.MutateBegin) ∧
    ∀ e d, s.bg = BgPc.atCas e d →
      (e = State.Mutated ∧ d = State.Indexing1) ∨
        (e = State.Indexing1 ∧ d = State.Indexing2) ∨
        (e = State.Indexing2 ∧ d = State.Stable)

end Spec


/-- A map whose index is built: the 300 keys `0, 2, .., 598`, sampled at positions 0 and 256. -/
def sampleIndex : BkIdxMap Int Int :=
  { m_state := State.Stable,
    m_impl := (List.range 300).map fun (i : Nat) => (2 * (i : Int), 2 * (i : Int) + 1),
    m_index_level1 := (List.range 300).map fun (i : Nat) => 2 * (i : Int),
    m_index_iter := (List.range 300).map fun (i : Nat) => Iterator.node (2 * (i : Int)),
    m_index_level2 := [0, 512],
    progress := Iterator.pastEnd, lvl2_index := 512 }

/-- A map holding the single entry `1 ↦ 10`, its index not yet rebuilt. -/
def singleEntry : BkIdxMap Int Int :=
  { m_state := State.Mutated, m_impl := [(1, 10)], m_index_level1 := [], m_index_iter := [],
    m_index_level2 := [], progress := Iterator.pastEnd, lvl2_index := 0 }

/-- An interleaving in which a second insert falls between the statements of the Mutated case
and its compare-exchange: Add(5, 50) returns; the index thread reads Mutated, clears level 1
and sets progress to the first entry; Add(3, 30) returns; the index thread then runs on alone
until the state is Stable. -/
def staleBuildSchedule : List (Action Int Int) :=
  [Action.call (Op.Add 5 50), Action.fg, Action.fg, Action.fg,
   Action.bg, Action.bg,
   Action.call (Op.Add 3 30), Action.fg, Action.fg, Action.fg,
   Action.bg,
   Action.bg, Action.bg, Action.bg,
   Action.bg, Action.bg,
   Action.bg, Action.bg, Action.bg]

/-- An interleaving in which the foreground passes Lock while the index is being built:
Add(1, 10) returns; the index thread moves the state to Indexing1 and reads it again;
Add(2, 20) is called and its Lock returns. -/
def lockDuringBuildSchedule : List (Action Int Int) :=
  [Action.call (Op.Add 1 10), Action.fg, Action.fg, Action.fg,
   Action.bg, Action.bg, Action.bg,
   Action.bg,
   Action.call (Op.Add 2 20), Action.fg]

/-- The state `staleBuildSchedule` leads to. -/
def staleBuildResult : Sys Int Int :=
  { map := { m_state := State.Stable, m_impl := [(3, 30), (5, 50)], m_index_level1 := [5],
             m_index_iter := [Iterator.node 5], m_index_level2 := [5],
             progress := Iterator.pastEnd, lvl2_index := 256 },
    bg := BgPc.atSwitch, fg := [], lockPc := LockPc.enter, joinable := true, found := none }

/-- The state `lockDuringBuildSchedule` leads to. -/
def lockDuringBuildResult : Sys Int Int :=
  { map := { m_state := State.Indexing1, m_impl := [(1, 10)], m_index_level1 := [],
             m_index_iter := [], m_index_level2 := [],
             progress := Iterator.node 1, lvl2_index := 0 },
    bg := BgPc.inCase State.Indexing1, fg := [Instr.insert 2 20, Instr.unlock],
    lockPc := LockPc.enter, joinable := true, found := none }

/-- The state reached from `Sys.init` by Add(1, 10) followed by DisableIndexing. -/
def afterDisable : Sys Int Int :=
  { map := { m_state := State.QuitDone, m_impl := [(1, 10)], m_index_level1 := [],
             m_index_iter := [], m_index_level2 := [],
             progress := Iterator.pastEnd, lvl2_index := 0 },
    bg := BgPc.finished, fg := [], lockPc := LockPc.enter, joinable := false, found := none }

/-- The container of `sampleIndex` with the state Mutated and index arrays left over from
elsewhere. -/
def staleSample : BkIdxMap Int Int :=
  { m_state := State.Mutated,
    m_impl := (List.range 300).map fun (i : Nat) => (2 * (i : Int), 2 * (i : Int) + 1),
    m_index_level1 := [7], m_index_iter := [], m_index_level2 := [9, 9, 9],
    progress := Iterator.pastEnd, lvl2_index := 5 }

/-- The empty map in state Mutated with its index thread at the head of the loop: a new map
after Clear. -/
def clearedMap : BkIdxMap Int Int :=
  { m_state := State.Mutated, m_impl := [], m_index_level1 := [], m_index_iter := [],
    m_index_level2 := [], progress := Iterator.pastEnd, lvl2_index := 0 }

/-- A state of the system in which DisableIndexing has stored Quit while the index thread is
between the statements of the Mutated case and its compare-exchange. -/
def quitBeforeCas : Sys Int Int :=
  { map := { m_state := State.Quit, m_impl := [(5, 50)], m_index_level1 := [],
             m_index_iter := [], m_index_level2 := [],
             progress := Iterator.node 5, lvl2_index := 0 },
    bg := BgPc.atCas State.Mutated State.Indexing1, fg := [Instr.join],
    lockPc := LockPc.enter, joinable := true, found := none }

/-- The system after Add(5, 50) on a new map has returned, the index thread at the head of its
loop. -/
def addedOne : Sys Int Int :=
  { map := { m_state := State.Mutated, m_impl := [(5, 50)], m_index_level1 := [],
             m_index_iter := [], m_index_level2 := [],
             progress := Iterator.pastEnd, lvl2_index := 0 },
    bg := BgPc.atSwitch, fg := [], lockPc := LockPc.enter, joinable := true, found := none }

/-- The system `addedOne` once the index thread has read the state Mutated. -/
def addedOneRead : Sys Int Int := { addedOne with bg := BgPc.inCase State.Mutated }

/-- The system `addedOne` once the statements of the Mutated case have run. -/
def addedOneCleared : Sys Int Int :=
  { addedOne with map := { addedOne.map with progress := Iterator.node 5 },
                  bg := BgPc.atCas State.Mutated State.Indexing1 }

/-- A map whose index thread is about to run the last Indexing1 iteration of a build, with a
level 2 left over from the build before. -/
def lastIndexing1 : BkIdxMap Int Int :=
  { m_state := State.Indexing1, m_impl := [(1, 10)], m_index_level1 := [],
    m_index_iter := [], m_index_level2 := [9], progress := Iterator.node 1, lvl2_index := 256 }

/-- The system right after the foreground has called Add(1, 10) on a new map. -/
def lockPending : Sys Int Int :=
  { map := BkIdxMap.fresh, bg := BgPc.atSwitch,
    fg := [Instr.lock, Instr.insert 1 10, Instr.unlock],
    lockPc := LockPc.enter, joinable := true, found := none }

/-- An interleaving in which the first Add of a batch has returned:
PerformLocked of Add(1, 10) and Add(2, 20) is called on a new map, the Lock of the batch and
the whole of Add(1, 10) are run. -/
def batchSchedule : List (Action Int Int) :=
  [Action.call (Op.PerformLocked [Op.Add 1 10, Op.Add 2 20]),
   Action.fg, Action.fg, Action.fg, Action.fg]

/-- The state `batchSchedule` leads to: Add(2, 20) and the Unlock of the batch are still to
come. -/
def batchResult : Sys Int Int :=
  { map := { m_state := State.Mutated, m_impl := [(1, 10)], m_index_level1 := [],
             m_index_iter := [], m_index_level2 := [],
             progress := Iterator.pastEnd, lvl2_index := 0 },
    bg := BgPc.atSwitch, fg := [Instr.lock, Instr.insert 2 20, Instr.unlock, Instr.unlock],
    lockPc := LockPc.enter, joinable := true, found := none }

/-- The interleaving `batchSchedule` followed by five steps of the index thread: the Mutated
case with its compare-exchange, and the statements of the Indexing1 case. -/
def batchBuildSchedule : List (Action Int Int) :=
  batchSchedule ++ [Action.bg, Action.bg, Action.bg, Action.bg, Action.bg]

/-- The state `batchBuildSchedule` leads to. -/
def batchBuildResult : Sys Int Int :=
  { map := { m_state := State.Indexing1, m_impl := [(1, 10)], m_index_level1 := [1],
             m_index_iter := [Iterator.node 1], m_index_level2 := [],
             progress := Iterator.pastEnd, lvl2_index := 0 },
    bg := BgPc.atCas State.Indexing1 State.Indexing2,
    fg := [Instr.lock, Instr.insert 2 20, Instr.unlock, Instr.unlock],
    lockPc := LockPc.enter, joinable := true, found := none }

/-- An interleaving in which Quit is stored while the index thread is inside a build on the
empty container: Clear() returns on a new map; the index thread runs the Mutated case with its
compare-exchange and reads Indexing1; DisableIndexing is called and stores Quit. -/
def quitDuringEmptyBuildSchedule : List (Action Int Int) :=
  [Action.call Op.Clear, Action.fg, Action.fg, Action.fg,
   Action.bg, Action.bg, Action.bg, Action.bg,
   Action.call Op.DisableIndexing, Action.fg]

/-- The state `quitDuringEmptyBuildSchedule` leads to. -/
def quitDuringEmptyBuildResult : Sys Int Int :=
  { map := { m_state := State.Quit, m_impl := [], m_index_level1 := [],
             m_index_iter := [], m_index_level2 := [],
             progress := Iterator.pastEnd, lvl2_index := 0 },
    bg := BgPc.inCase State.Indexing1, fg := [Instr.join],
    lockPc := LockPc.enter, joinable := true, found := none }

/-! ## Lemmas -/

section PlainLemmas

variable {K V : Type}

mutual
theorem Op.code_isPlain (j : Bool) : ∀ (op : Op K V), Op.isPlain op = true →
    ∀ i ∈ Op.code j op, Instr.isPlain i = true
  | Op.Add k v, _ => by
    intro i hi
    simp [Op.code] at hi
    rcases hi with h | h | h <;> subst h <;> rfl
  | Op.Remove k, _ => by
    intro i hi
    simp [Op.code] at hi
    rcases hi with h | h | h <;> subst h <;> rfl
  | Op.Clear, _ => by
    intro i hi
    simp [Op.code] at hi
    rcases hi with h | h | h <;> subst h <;> rfl
  | Op.Find k, _ => by
    intro i hi
    simp [Op.code] at hi
    subst hi; rfl
  | Op.PerformLocked fn, h => by
    intro i hi
    simp only [Op.code, List.mem_cons, List.mem_append, List.not_mem_nil, or_false] at hi
    rcases hi with h1 | h1 | h1
    · subst h1; rfl
    · exact Op.codeList_isPlain j fn (by simpa [Op.isPlain] using h) i h1
    · subst h1; rfl
  | Op.DisableIndexing, h => by simp [Op.isPlain] at h
  | Op.Destroy, h => by simp [Op.isPlain] at h
theorem Op.codeList_isPlain (j : Bool) : ∀ (ops : List (Op K V)), Op.allPlain ops = true →
    ∀ i ∈ Op.codeList j ops, Instr.isPlain i = true
  | [], _ => by intro i hi; simp [Op.codeList] at hi
  | op :: rest, h => by
    intro i hi
    simp only [Op.allPlain, Bool.and_eq_true] at h
    simp only [Op.codeList, List.mem_append] at hi
    rcases hi with h1 | h1
    · exact Op.code_isPlain j op h.1 i h1
    · exact Op.codeList_isPlain j rest h.2 i h1
end

end PlainLemmas

section Lemmas

variable {K V : Type} [LinearOrder K]

open BkIdxMap

/-! ### Sorted lists and `lower_bound` -/
theorem sorted_getElem?_lt {v : List K} (hs : v.Pairwise (· < ·)) {i j : Nat} {x y : K}
    (hij : i < j) (hx : v[i]? = some x) (hy : v[j]? = some y) : x < y := by
  obtain ⟨hi, rfl⟩ := List.getElem?_eq_some.mp hx
  obtain ⟨hj, rfl⟩ := List.getElem?_eq_some.mp hy
  exact (List.pairwise_iff_getElem.mp hs) i j hi hj hij

theorem sorted_getElem?_le {v : List K} (hs : v.Pairwise (· < ·)) {i j : Nat} {x y : K}
    (hij : i ≤ j) (hx : v[i]? = some x) (hy : v[j]? = some y) : x ≤ y := by
  rcases Nat.lt_or_eq_of_le hij with h | h
  · exact le_of_lt (sorted_getElem?_lt hs h hx hy)
  · subst h; rw [hx] at hy; cases hy; exact le_refl _

theorem lower_bound_loop_spec (v : List K) (k : K) (hs : v.Pairwise (· < ·)) :
    ∀ (fuel first len : Nat), len ≤ fuel → first + len ≤ v.length →
      first ≤ lower_bound_loop v k fuel first len ∧
      lower_bound_loop v k fuel first len ≤ first + len ∧
      (∀ i x, first ≤ i → i < lower_bound_loop v k fuel first len → v[i]? = some x → x < k) ∧
      (∀ i x, lower_bound_loop v k fuel first len ≤ i → i < first + len →
        v[i]? = some x → k ≤ x) := by
  intro fuel
  induction fuel with
  | zero =>
    intro first len hlen _
    have : len = 0 := by omega
    subst this
    simp only [lower_bound_loop]
    refine ⟨le_refl _, by omega, ?_, ?_⟩
    · intro i x h1 h2; omega
    · intro i x h1 h2; omega
  | succ fuel ih =>
    intro first len hlen hbound
    by_cases h0 : len = 0
    · subst h0
      simp only [lower_bound_loop, if_true]
      refine ⟨le_refl _, by omega, ?_, ?_⟩
      · intro i x h1 h2; omega
      · intro i x h1 h2; omega
    · have hmid : first + len / 2 < v.length := by omega
      have hget : v[first + len / 2]? = some (v[first + len / 2]) :=
        List.getElem?_eq_getElem hmid
      simp only [lower_bound_loop, h0, if_false, hget]
      by_cases hlt : v[first + len / 2] < k
      · simp only [hlt, if_true]
        obtain ⟨a, b, c, d⟩ := ih (first + len / 2 + 1) (len - len / 2 - 1) (by omega) (by omega)
        refine ⟨by omega, by omega, ?_, ?_⟩
        · intro i x h1 h2 hx
          by_cases hi : first + len / 2 + 1 ≤ i
          · exact c i x hi h2 hx
          · exact lt_of_le_of_lt (sorted_getElem?_le hs (by omega) hx hget) hlt
        · intro i x h1 h2 hx
          exact d i x h1 (by omega) hx
      · simp only [hlt, if_false]
        obtain ⟨a, b, c, d⟩ := ih first (len / 2) (by omega) (by omega)
        refine ⟨a, by omega, c, ?_⟩
        intro i x h1 h2 hx
        by_cases hi : i < first + len / 2
        · exact d i x h1 hi hx
        · exact le_trans (not_lt.mp hlt) (sorted_getElem?_le hs (by omega) hget hx)

theorem lower_bound_spec (v : List K) (k : K) (hs : v.Pairwise (· < ·)) (first last : Nat)
    (hfl : first ≤ last) (hlast : last ≤ v.length) :
    first ≤ lower_bound v first last k ∧ lower_bound v first last k ≤ last ∧
      (∀ i x, first ≤ i → i < lower_bound v first last k → v[i]? = some x → x < k) ∧
      (∀ i x, lower_bound v first last k ≤ i → i < last → v[i]? = some x → k ≤ x) := by
  have h := lower_bound_loop_spec v k hs (last - first) first (last - first) (le_refl _) (by omega)
  have e : first + (last - first) = last := by omega
  rw [e] at h
  exact h

/-! ### The indexed search -/

theorem sampled_sorted {level1 level2 : List K} (hs : level1.Pairwise (· < ·))
    (h2 : SampledEvery level1 level2) : level2.Pairwise (· < ·) := by
  rw [List.pairwise_iff_getElem]
  intro i j hi hj hij
  have ei := h2.2 i hi
  have ej := h2.2 j hj
  rw [List.getElem?_eq_getElem hi] at ei
  rw [List.getElem?_eq_getElem hj] at ej
  exact sorted_getElem?_lt hs (by omega) ei.symm ej.symm

theorem intArith_of_range {x : Int} (h1 : -2147483648 ≤ x) (h2 : x ≤ 2147483647) :
    intArith x = some x := by
  unfold intArith
  exact if_pos ⟨h1, h2⟩

theorem toInt_of_range {x : Int} (h1 : -2147483648 ≤ x) (h2 : x ≤ 2147483647) :
    toInt x = x := by
  unfold toInt
  omega

theorem toSizeT_natCast (x : Nat) (h : x < 18446744073709551616) : toSizeT (x : Int) = x := by
  unfold toSizeT
  omega

theorem FindIndexed_char (m : BkIdxMap K V) (k : K)
    (hs : m.m_index_level1.Pairwise (· < ·))
    (h2 : SampledEvery m.m_index_level1 m.m_index_level2)
    (hsz : m.m_index_level1.length < 2147483648) :
    ∃ p, p ≤ m.m_index_level1.length ∧
      (∀ i x, i < p → m.m_index_level1[i]? = some x → x < k) ∧
      (∀ i x, p ≤ i → m.m_index_level1[i]? = some x → k ≤ x) ∧
      FindIndexed m k =
        if p = m.m_index_level1.length then some Iterator.pastEnd
        else match m.m_index_level1[p]? with
          | none => none
          | some x => if x ≠ k then some Iterator.pastEnd else m.m_index_iter[p]? := by
  have hs2 := sampled_sorted hs h2
  obtain ⟨hL, hsamp⟩ := h2
  obtain ⟨-, a2, a3, a4⟩ := lower_bound_spec m.m_index_level2 k hs2 0 m.m_index_level2.length
    (Nat.zero_le _) (le_refl _)
  generalize hj : lower_bound m.m_index_level2 0 m.m_index_level2.length k = j2 at a2 a3 a4
  generalize hn : m.m_index_level1.length = n at *
  generalize hLL : m.m_index_level2.length = L at *
  -- the section start
  have hstart : 256 * (j2 - 1) ≤ n := by omega
  have e1 : intArith (toInt (j2 : Int) - 1) = some ((j2 : Int) - 1) := by
    rw [toInt_of_range (by omega) (by omega)]
    exact intArith_of_range (by omega) (by omega)
  have e2 : intArith (step * max 0 ((j2 : Int) - 1)) = some ((256 * (j2 - 1) : Nat) : Int) := by
    have e : step * max 0 ((j2 : Int) - 1) = ((256 * (j2 - 1) : Nat) : Int) := by
      unfold step; omega
    rw [e]
    exact intArith_of_range (by omega) (by omega)
  have e3 : toSizeT (((n : Nat) : Int) - ((256 * (j2 - 1) : Nat) : Int)) = n - 256 * (j2 - 1) := by
    have e : ((n : Nat) : Int) - ((256 * (j2 - 1) : Nat) : Int) = ((n - 256 * (j2 - 1) : Nat) : Int) := by
      omega
    rw [e]
    exact toSizeT_natCast _ (by omega)
  have e4 : toSizeT step = 256 := by
    unfold step
    exact toSizeT_natCast 256 (by omega)
  have hrange : (0 : Int) ≤ ((256 * (j2 - 1) : Nat) : Int) ∧
      ((256 * (j2 - 1) : Nat) : Int) ≤ ((n : Nat) : Int) := by omega
  obtain ⟨b1, b2, b3, b4⟩ := lower_bound_spec m.m_index_level1 k hs (256 * (j2 - 1))
    (256 * (j2 - 1) + min (n - 256 * (j2 - 1)) 256) (by omega) (by omega)
  generalize hp : lower_bound m.m_index_level1 (256 * (j2 - 1))
    (256 * (j2 - 1) + min (n - 256 * (j2 - 1)) 256) k = p at b1 b2 b3 b4
  have hfind : FindIndexed m k =
      if p = n then some Iterator.pastEnd
      else match m.m_index_level1[p]? with
        | none => none
        | some x => if x ≠ k then some Iterator.pastEnd else m.m_index_iter[p]? := by
    simp only [FindIndexed, hj, hLL, e1, Option.some_bind, hn, e2, hrange, and_self, if_true, e3,
      e4, Int.toNat_ofNat, hp, End]
  refine ⟨p, by omega, ?_, ?_, hfind⟩
  · intro i x hi hx
    by_cases his : 256 * (j2 - 1) ≤ i
    · exact b3 i x his hi hx
    · -- below the section start: below the sampled key level2[j2 - 1], which is less than k
      have hj1 : j2 - 1 < L := by omega
      have hb : j2 - 1 < m.m_index_level2.length := by omega
      have hsam := hsamp (j2 - 1) hj1
      rw [List.getElem?_eq_getElem hb] at hsam
      have hlt : m.m_index_level2[j2 - 1] < k :=
        a3 (j2 - 1) _ (Nat.zero_le _) (by omega) (List.getElem?_eq_getElem hb)
      exact lt_trans (sorted_getElem?_lt hs (by omega) hx hsam.symm) hlt
  · intro i x hi hx
    have hin : i < n := by
      rw [← hn]; exact (List.getElem?_eq_some.mp hx).1
    by_cases hie : i < 256 * (j2 - 1) + min (n - 256 * (j2 - 1)) 256
    · exact b4 i x hi hie hx
    · -- beyond the section end: not below the sampled key level2[j2], which is not less than k
      have hj1 : j2 < L := by omega
      have hb : j2 < m.m_index_level2.length := by omega
      have hsam := hsamp j2 hj1
      rw [List.getElem?_eq_getElem hb] at hsam
      have hle : k ≤ m.m_index_level2[j2] :=
        a4 j2 _ (le_refl _) hj1 (List.getElem?_eq_getElem hb)
      exact le_trans hle (sorted_getElem?_le hs (by omega) hsam.symm hx)


/-! ### The sample index -/

theorem sampleIndex_sorted : sampleIndex.m_index_level1.Pairwise (· < ·) := by
  show ((List.range 300).map fun (i : Nat) => 2 * (i : Int)).Pairwise (· < ·)
  rw [List.pairwise_map]
  exact (List.pairwise_lt_range 300).imp (fun h => by omega)

theorem sampleIndex_length : sampleIndex.m_index_level1.length = 300 := by
  show ((List.range 300).map fun (i : Nat) => 2 * (i : Int)).length = 300
  rw [List.length_map, List.length_range]

theorem sampleIndex_iter_length :
    sampleIndex.m_index_iter.length = sampleIndex.m_index_level1.length := by
  show ((List.range 300).map fun (i : Nat) => Iterator.node (2 * (i : Int))).length =
    ((List.range 300).map fun (i : Nat) => 2 * (i : Int)).length
  rw [List.length_map, List.length_map]

theorem sampleIndex_level1_getElem? (i : Nat) (hi : i < 300) :
    sampleIndex.m_index_level1[i]? = some (2 * (i : Int)) := by
  show ((List.range 300).map fun (i : Nat) => 2 * (i : Int))[i]? = some (2 * (i : Int))
  rw [List.getElem?_map, List.getElem?_range hi]
  rfl

theorem sampleIndex_iter_getElem? (i : Nat) (hi : i < 300) :
    sampleIndex.m_index_iter[i]? = some (Iterator.node (2 * (i : Int))) := by
  show ((List.range 300).map fun (i : Nat) => Iterator.node (2 * (i : Int)))[i]? = _
  rw [List.getElem?_map, List.getElem?_range hi]
  rfl

theorem sampleIndex_sampled :
    SampledEvery sampleIndex.m_index_level1 sampleIndex.m_index_level2 := by
  refine ⟨by rw [sampleIndex_length]; rfl, ?_⟩
  intro j hj
  have hj2 : j < 2 := hj
  interval_cases j
  · rw [sampleIndex_level1_getElem? _ (by omega)]; rfl
  · rw [sampleIndex_level1_getElem? _ (by omega)]; rfl

theorem sampleIndex_odd_absent (k : Int) (hk : k % 2 = 1) : k ∉ sampleIndex.m_index_level1 := by
  show k ∉ (List.range 300).map fun (i : Nat) => 2 * (i : Int)
  rw [List.mem_map]
  rintro ⟨a, -, ha⟩
  omega

theorem FindIndexed_of_getElem? (m : BkIdxMap K V) (k : K)
    (hs : m.m_index_level1.Pairwise (· < ·))
    (h2 : SampledEvery m.m_index_level1 m.m_index_level2)
    (hsz : m.m_index_level1.length < 2147483648)
    (i : Nat) (hk : m.m_index_level1[i]? = some k) :
    FindIndexed m k = m.m_index_iter[i]? := by
  obtain ⟨p, hp, hlo, hhi, hfind⟩ := FindIndexed_char m k hs h2 hsz
  obtain ⟨hi, hki⟩ := List.getElem?_eq_some.mp hk
  have hpi : p = i := by
    rcases Nat.lt_trichotomy p i with h | h | h
    · -- the key at p is not below k, yet it precedes position i
      have hx := List.getElem?_eq_getElem (Nat.lt_trans h hi)
      have h1 := hhi p _ (le_refl _) hx
      have h2 := sorted_getElem?_lt hs h hx hk
      exact absurd h2 (not_lt.mpr h1)
    · exact h
    · exact absurd (hlo i k h hk) (lt_irrefl _)
  subst hpi
  rw [hfind, if_neg (Nat.ne_of_lt hi), hk]
  simp

theorem FindIndexed_of_not_mem (m : BkIdxMap K V) (k : K)
    (hs : m.m_index_level1.Pairwise (· < ·))
    (h2 : SampledEvery m.m_index_level1 m.m_index_level2)
    (hsz : m.m_index_level1.length < 2147483648)
    (hk : k ∉ m.m_index_level1) :
    FindIndexed m k = some Iterator.pastEnd := by
  obtain ⟨p, hp, hlo, hhi, hfind⟩ := FindIndexed_char m k hs h2 hsz
  rw [hfind]
  by_cases hpn : p = m.m_index_level1.length
  · rw [if_pos hpn]
  · rw [if_neg hpn]
    have hlt : p < m.m_index_level1.length := by omega
    rw [List.getElem?_eq_getElem hlt]
    have hne : m.m_index_level1[p] ≠ k := by
      intro h
      exact hk (h ▸ List.getElem_mem hlt)
    simp [hne]

/-! ### The container -/

theorem Impl.lookup_insert_self (m : Impl K V) (hwf : Impl.WellFormed m) (k : K) (v : V) :
    Impl.lookup (Impl.insert m k v) k =
      some (match Impl.lookup m k with
        | some old => old
        | none => v) := by
  induction m with
  | nil => simp [Impl.insert, Impl.lookup]
  | cons e rest ih =>
    obtain ⟨k', v'⟩ := e
    have hwf' : Impl.WellFormed rest := (List.pairwise_cons.mp hwf).2
    have hhead : ∀ x ∈ Impl.keys rest, k' < x := (List.pairwise_cons.mp hwf).1
    by_cases h1 : k < k'
    · have hne : k' ≠ k := ne_of_gt h1
      have habs : Impl.lookup rest k = none := by
        clear ih hwf
        induction rest with
        | nil => rfl
        | cons e2 rest2 ih2 =>
          obtain ⟨k2, v2⟩ := e2
          have hk2 : k' < k2 := hhead k2 (by simp [Impl.keys])
          have hne2 : k2 ≠ k := ne_of_gt (lt_trans h1 hk2)
          simp only [Impl.lookup, hne2, if_false]
          exact ih2 (List.pairwise_cons.mp hwf').2
            (fun x hx => hhead x (by simp only [Impl.keys, List.map_cons, List.mem_cons] at hx ⊢; exact Or.inr hx))
      simp [Impl.insert, Impl.lookup, h1, hne, habs]
    · by_cases h2 : k' < k
      · have hne : k' ≠ k := ne_of_lt h2
        simp only [Impl.insert, h1, h2, if_true, if_false, Impl.lookup, hne]
        exact ih hwf'
      · have he : k' = k := le_antisymm (not_lt.mp h1) (not_lt.mp h2)
        simp [Impl.insert, Impl.lookup, h1, h2, he]

/-! ### Foreground calls -/

omit [LinearOrder K] in
theorem Lock_of_ne_Mutating (m : BkIdxMap K V) (h : m.m_state ≠ State.Mutating) :
    Lock m = some m := by
  unfold Lock
  exact if_neg h

theorem Find_of_not_Stable (m : BkIdxMap K V) (h : m.m_state ≠ State.Stable) (k : K) :
    Find m k = some (Impl.find m.m_impl k) := by
  simp [Find, IsFastIndexAvailable, h]

theorem Quiesced.fgStep {s s1 : Sys K V} (h : Quiesced s) (hs : Sys.fgStep s = some s1) :
    Quiesced s1 := by
  obtain ⟨hbg, hst, hpc, hfg⟩ := h
  have hne : s.map.m_state ≠ State.Mutating := by
    rcases hst with e | e <;> rw [e] <;> decide
  have hns : s.map.m_state ≠ State.Stable := by
    rcases hst with e | e <;> rw [e] <;> decide
  unfold Sys.fgStep at hs
  cases hfgs : s.fg with
  | nil => rw [hfgs] at hs; simp at hs
  | cons i rest =>
    have hrest : ∀ x ∈ rest, Instr.isPlain x = true := fun x hx =>
      hfg x (by rw [hfgs]; exact List.mem_cons_of_mem _ hx)
    have hi : Instr.isPlain i = true := hfg i (by rw [hfgs]; exact List.mem_cons_self _ _)
    rw [hfgs] at hs
    cases i with
    | lock =>
      simp only [hpc, hne, if_false, Option.some.injEq] at hs
      subst hs
      exact ⟨hbg, hst, rfl, hrest⟩
    | unlock =>
      simp only [Option.some.injEq] at hs
      subst hs
      exact ⟨hbg, Or.inr rfl, hpc, hrest⟩
    | insert k v =>
      simp only [Option.some.injEq] at hs
      subst hs
      exact ⟨hbg, hst, hpc, hrest⟩
    | erase k =>
      simp only [Option.some.injEq] at hs
      subst hs
      exact ⟨hbg, hst, hpc, hrest⟩
    | clear =>
      simp only [Option.some.injEq] at hs
      subst hs
      exact ⟨hbg, hst, hpc, hrest⟩
    | find k =>
      simp only [Find_of_not_Stable s.map hns, Option.map_some', Option.some.injEq] at hs
      subst hs
      exact ⟨hbg, hst, hpc, hrest⟩
    | storeQuit => simp [Instr.isPlain] at hi
    | awaitQuitDone => simp [Instr.isPlain] at hi
    | join => simp [Instr.isPlain] at hi

theorem Quiesced.step {s s1 : Sys K V} (h : Quiesced s) (a : Action K V)
    (ha : Action.isPlain a = true) (hs : Sys.step s a = some s1) : Quiesced s1 := by
  cases a with
  | call op =>
    simp only [Sys.step] at hs
    split at hs
    · simp only [Option.some.injEq] at hs
      subst hs
      exact ⟨h.1, h.2.1, h.2.2.1, Op.code_isPlain s.joinable op ha⟩
    · simp at hs
  | fg => exact h.fgStep hs
  | bg =>
    simp only [Sys.step, Sys.bgStep, h.1] at hs
    simp at hs

theorem Quiesced.run {s s1 : Sys K V} (h : Quiesced s) (acts : List (Action K V))
    (ha : ∀ a ∈ acts, Action.isPlain a = true) (hs : Sys.run s acts = some s1) :
    Quiesced s1 := by
  induction acts generalizing s with
  | nil =>
    simp only [Sys.run, Option.some.injEq] at hs
    subst hs
    exact h
  | cons a rest ih =>
    simp only [Sys.run] at hs
    cases hstep : Sys.step s a with
    | none => rw [hstep] at hs; simp at hs
    | some s2 =>
      rw [hstep] at hs
      exact ih (h.step a (ha a (List.mem_cons_self _ _)) hstep)
        (fun x hx => ha x (List.mem_cons_of_mem _ hx)) hs

theorem Sys.run_append (s : Sys K V) (a b : List (Action K V)) :
    Sys.run s (a ++ b) = (Sys.run s a).bind fun s1 => Sys.run s1 b := by
  induction a generalizing s with
  | nil => simp [Sys.run]
  | cons x rest ih =>
    simp only [List.cons_append, Sys.run]
    cases Sys.step s x with
    | none => simp
    | some s2 => simp [ih]

theorem Quiesced.fgStep_some {s : Sys K V} (h : Quiesced s) (i : Instr K V)
    (rest : List (Instr K V)) (hfgs : s.fg = i :: rest) :
    ∃ s1, Sys.fgStep s = some s1 ∧ s1.fg = rest ∧ s1.joinable = s.joinable := by
  obtain ⟨hbg, hst, hpc, hfg⟩ := h
  have hne : s.map.m_state ≠ State.Mutating := by
    rcases hst with e | e <;> rw [e] <;> decide
  have hns : s.map.m_state ≠ State.Stable := by
    rcases hst with e | e <;> rw [e] <;> decide
  have hi : Instr.isPlain i = true := hfg i (by rw [hfgs]; exact List.mem_cons_self _ _)
  unfold Sys.fgStep
  rw [hfgs]
  cases i with
  | lock => simp only [hpc, hne, if_false]; exact ⟨_, rfl, rfl, rfl⟩
  | unlock => exact ⟨_, rfl, rfl, rfl⟩
  | insert k v => exact ⟨_, rfl, rfl, rfl⟩
  | erase k => exact ⟨_, rfl, rfl, rfl⟩
  | clear => exact ⟨_, rfl, rfl, rfl⟩
  | find k =>
    simp only [Find_of_not_Stable s.map hns, Option.map_some']
    exact ⟨_, rfl, rfl, rfl⟩
  | storeQuit => simp [Instr.isPlain] at hi
  | awaitQuitDone => simp [Instr.isPlain] at hi
  | join => simp [Instr.isPlain] at hi

theorem Quiesced.run_code {s : Sys K V} (h : Quiesced s) :
    ∃ s1, Sys.run s (List.replicate s.fg.length Action.fg) = some s1 ∧ s1.fg = [] ∧
      s1.joinable = s.joinable ∧ Quiesced s1 := by
  generalize hc : s.fg = code
  induction code generalizing s with
  | nil => exact ⟨s, rfl, hc, rfl, h⟩
  | cons i rest ih =>
    obtain ⟨s1, hstep, hfg1, hj1⟩ := h.fgStep_some i rest hc
    obtain ⟨s2, hrun, hfg2, hj2, hq2⟩ := ih (h.fgStep hstep) hfg1
    refine ⟨s2, ?_, hfg2, hj2.trans hj1, hq2⟩
    simp only [List.length_cons, List.replicate_succ, Sys.run, Sys.step, hstep, Option.some_bind]
    exact hrun

theorem Quiesced.run_schedule (ops : List (Op K V)) (hops : Op.allPlain ops = true) :
    ∀ {s : Sys K V}, Quiesced s → s.fg = [] →
      ∃ s1, Sys.run s (Op.schedule s.joinable ops) = some s1 ∧ s1.fg = [] ∧ Quiesced s1 := by
  induction ops with
  | nil => intro s h hfg; exact ⟨s, rfl, hfg, h⟩
  | cons op rest ih =>
    intro s h hfg
    simp only [Op.allPlain, Bool.and_eq_true] at hops
    have hcall : Sys.step s (Action.call op) = some { s with fg := Op.code s.joinable op } := by
      simp [Sys.step, hfg]
    have hq1 : Quiesced { s with fg := Op.code s.joinable op } :=
      h.step (Action.call op) hops.1 hcall
    obtain ⟨s2, hrun2, hfg2, hj2, hq2⟩ := hq1.run_code
    obtain ⟨s3, hrun3, hfg3, hq3⟩ := ih hops.2 hq2 hfg2
    refine ⟨s3, ?_, hfg3, hq3⟩
    simp only [Op.schedule, Sys.run, hcall, Option.some_bind, Sys.run_append]
    rw [hrun2]
    simp only [Option.some_bind]
    rw [hj2] at hrun3
    exact hrun3

/-- The state `afterDisable` is the one in which DisableIndexing returns when it is called
after Add(1, 10) on a new map. -/
theorem afterDisable_reached :
    Sys.run Sys.init
      [Action.call (Op.Add 1 10), Action.fg, Action.fg, Action.fg,
       Action.call Op.DisableIndexing, Action.fg, Action.bg, Action.bg, Action.fg]
      = some afterDisable := by
  decide!

/-! ### The index build -/

omit [LinearOrder K] in
theorem Impl.begin_eq_iterAt (m : Impl K V) : Impl.begin m = Impl.iterAt m 0 := by
  cases m with
  | nil => rfl
  | cons e rest =>
    obtain ⟨k, v⟩ := e
    simp [Impl.begin, Impl.iterAt, Impl.keys]

theorem Impl.deref_node (m : Impl K V) (j : Nat) (k : K) (hk : (Impl.keys m)[j]? = some k) :
    Impl.deref m (Iterator.node k) = some k := by
  have hmem : k ∈ Impl.keys m := List.getElem?_mem hk
  simp [Impl.deref, hmem]

theorem Impl.next_node (m : Impl K V) (hwf : Impl.WellFormed m) (j : Nat) (k : K)
    (hk : (Impl.keys m)[j]? = some k) :
    Impl.next m (Iterator.node k) = some (Impl.iterAt m (j + 1)) := by
  induction m generalizing j with
  | nil => simp [Impl.keys] at hk
  | cons e rest ih =>
    obtain ⟨k', v'⟩ := e
    have hwf' : Impl.WellFormed rest := (List.pairwise_cons.mp hwf).2
    have hhead : ∀ x ∈ Impl.keys rest, k' < x := (List.pairwise_cons.mp hwf).1
    have hshift : ∀ i, Impl.iterAt ((k', v') :: rest) (i + 1) = Impl.iterAt rest i := by
      intro i
      simp [Impl.iterAt, Impl.keys]
    cases j with
    | zero =>
      have hkk : k' = k := by simpa [Impl.keys] using hk
      subst hkk
      simp only [Impl.next, if_true, hshift, Impl.begin_eq_iterAt]
    | succ j' =>
      have hk2 : (Impl.keys rest)[j']? = some k := by simpa [Impl.keys] using hk
      have hne : k' ≠ k := ne_of_lt (hhead k (List.getElem?_mem hk2))
      simp only [Impl.next, hne, if_false, hshift]
      exact ih hwf' j' hk2

theorem loopIteration_Mutated (m : BkIdxMap K V) (hst : m.m_state = State.Mutated) :
    loopIteration m =
      some { m with m_index_level1 := [], m_index_iter := [],
                    progress := Impl.iterAt m.m_impl 0, m_state := State.Indexing1 } := by
  simp [loopIteration, hst, caseBody, compare_exchange_strong, Impl.begin_eq_iterAt]

theorem loopIteration_Indexing1_more (m : BkIdxMap K V) (hst : m.m_state = State.Indexing1)
    (hwf : Impl.WellFormed m.m_impl) (j : Nat) (k k1 : K)
    (hk : (Impl.keys m.m_impl)[j]? = some k) (hk1 : (Impl.keys m.m_impl)[j + 1]? = some k1)
    (hp : m.progress = Iterator.node k) :
    loopIteration m =
      some { m with m_index_level1 := m.m_index_level1 ++ [k],
                    m_index_iter := m.m_index_iter ++ [Iterator.node k],
                    progress := Iterator.node k1 } := by
  have hn := Impl.next_node m.m_impl hwf j k hk
  have hd := Impl.deref_node m.m_impl j k hk
  have hi : Impl.iterAt m.m_impl (j + 1) = Iterator.node k1 := by simp [Impl.iterAt, hk1]
  rw [hi] at hn
  simp [loopIteration, hst, caseBody, hp, hn, hd]

theorem loopIteration_Indexing1_last (m : BkIdxMap K V) (hst : m.m_state = State.Indexing1)
    (hwf : Impl.WellFormed m.m_impl) (j : Nat) (k : K)
    (hk : (Impl.keys m.m_impl)[j]? = some k) (hk1 : (Impl.keys m.m_impl)[j + 1]? = none)
    (hp : m.progress = Iterator.node k) :
    loopIteration m =
      some { m with m_index_level1 := m.m_index_level1 ++ [k],
                    m_index_iter := m.m_index_iter ++ [Iterator.node k],
                    progress := Iterator.pastEnd, lvl2_index := 0, m_index_level2 := [],
                    m_state := State.Indexing2 } := by
  have hn := Impl.next_node m.m_impl hwf j k hk
  have hd := Impl.deref_node m.m_impl j k hk
  have hi : Impl.iterAt m.m_impl (j + 1) = Iterator.pastEnd := by simp [Impl.iterAt, hk1]
  rw [hi] at hn
  simp [loopIteration, hst, caseBody, hp, hn, hd, compare_exchange_strong]

theorem loopIteration_Indexing2_more (m : BkIdxMap K V) (hst : m.m_state = State.Indexing2)
    (s : Nat) (key : K) (hl : m.lvl2_index = ((256 * s : Nat) : Int))
    (hkey : m.m_index_level1[256 * s]? = some key)
    (hsz : 256 * s + 256 ≤ 2147483647) :
    loopIteration m =
      some { m with m_index_level2 := m.m_index_level2 ++ [key],
                    lvl2_index := ((256 * (s + 1) : Nat) : Int) } := by
  have hlt : 256 * s < m.m_index_level1.length := (List.getElem?_eq_some.mp hkey).1
  have e1 : toSizeT ((256 * s : Nat) : Int) = 256 * s := toSizeT_natCast _ (by omega)
  have e2 : intArith (((256 * s : Nat) : Int) + step) = some ((256 * (s + 1) : Nat) : Int) := by
    have e : ((256 * s : Nat) : Int) + step = ((256 * (s + 1) : Nat) : Int) := by
      unfold step; omega
    rw [e]
    exact intArith_of_range (by omega) (by omega)
  unfold loopIteration
  rw [hst]
  simp only [caseBody]
  rw [hl, e1, if_neg (Nat.not_le.mpr hlt), hkey, e2]
  simp only [Option.some_bind, Option.map_some', hst]

theorem loopIteration_Indexing2_done (m : BkIdxMap K V) (hst : m.m_state = State.Indexing2)
    (s : Nat) (hl : m.lvl2_index = ((256 * s : Nat) : Int))
    (hge : m.m_index_level1.length ≤ 256 * s) (hsz : 256 * s < 18446744073709551616) :
    loopIteration m = some { m with m_state := State.Stable } := by
  have e1 : toSizeT ((256 * s : Nat) : Int) = 256 * s := toSizeT_natCast _ hsz
  unfold loopIteration
  rw [hst]
  simp only [caseBody]
  rw [hl, e1, if_pos hge]
  simp [compare_exchange_strong, hst, hl]

theorem loopIterations_succ (t : Nat) (m : BkIdxMap K V) :
    loopIterations (t + 1) m = (loopIterations t m).bind loopIteration := by
  induction t generalizing m with
  | zero =>
    cases h : loopIteration m <;> simp [loopIterations, h]
  | succ t ih =>
    rw [loopIterations]
    cases h : loopIteration m with
    | none => simp [loopIterations, h]
    | some m1 =>
      simp only [Option.some_bind]
      rw [ih m1]
      conv_rhs => rw [loopIterations, h]
      simp only [Option.some_bind]

omit [LinearOrder K] in
theorem Impl.keys_length (m : Impl K V) : (Impl.keys m).length = m.length := by
  simp [Impl.keys]

theorem BuildPhase.next (m : BkIdxMap K V) (hwf : Impl.WellFormed m.m_impl)
    (hn : 1 ≤ m.m_impl.length) (hsz : m.m_impl.length + 256 ≤ 2147483648)
    (t : Nat) (ht : t < m.m_impl.length + (m.m_impl.length + 255) / 256 + 2)
    (m1 : BkIdxMap K V) (h : BuildPhase m t m1) :
    ∃ m2, loopIteration m1 = some m2 ∧ BuildPhase m (t + 1) m2 := by
  obtain ⟨himpl, hph⟩ := h
  have hkl := Impl.keys_length m.m_impl
  generalize hnn : m.m_impl.length = n at *
  generalize hks : Impl.keys m.m_impl = ks at *
  by_cases h0 : t = 0
  · -- the Mutated case
    subst h0
    rw [if_pos rfl] at hph
    refine ⟨_, loopIteration_Mutated m1 hph, ?_⟩
    refine ⟨himpl, ?_⟩
    rw [hnn, hks, if_neg (by omega), if_pos (by omega)]
    simp [himpl]
  · rw [if_neg h0] at hph
    by_cases h1 : t ≤ n
    · -- an Indexing1 iteration
      rw [if_pos h1] at hph
      obtain ⟨hst, hl1, hit, hpr⟩ := hph
      have hj : t - 1 < ks.length := by omega
      have hk : (Impl.keys m1.m_impl)[t - 1]? = some ks[t - 1] := by
        rw [himpl, hks]; exact List.getElem?_eq_getElem hj
      have hpr2 : m1.progress = Iterator.node ks[t - 1] := by
        rw [hpr, Impl.iterAt, hks, List.getElem?_eq_getElem hj]
      have hmap : (ks.take (t - 1)).map Iterator.node ++ [Iterator.node ks[t - 1]] =
          (ks.take (t - 1) ++ [ks[t - 1]]).map Iterator.node := by
        rw [List.map_append]; rfl
      have htake : ks.take (t - 1) ++ [ks[t - 1]] = ks.take t := by
        have := List.take_succ (l := ks) (n := t - 1)
        rw [List.getElem?_eq_getElem hj] at this
        have e : t - 1 + 1 = t := by omega
        rw [e] at this
        rw [this]; rfl
      by_cases h2 : t < n
      · have hj1 : t < ks.length := by omega
        have hk1 : (Impl.keys m1.m_impl)[t - 1 + 1]? = some ks[t] := by
          have e : t - 1 + 1 = t := by omega
          rw [himpl, hks, e]; exact List.getElem?_eq_getElem hj1
        refine ⟨_, loopIteration_Indexing1_more m1 hst (himpl ▸ hwf) (t - 1) _ _ hk hk1 hpr2, ?_⟩
        refine ⟨himpl, ?_⟩
        rw [hnn, hks, if_neg (by omega), if_pos (by omega)]
        have e : t + 1 - 1 = t := by omega
        rw [e]
        refine ⟨hst, ?_, ?_, ?_⟩
        · show m1.m_index_level1 ++ [ks[t - 1]] = _
          rw [hl1, htake]
        · show m1.m_index_iter ++ [Iterator.node ks[t - 1]] = _
          rw [hit, hmap, htake]
        · show Iterator.node ks[t] = _
          rw [Impl.iterAt, hks, List.getElem?_eq_getElem hj1]
      · have htn : t = n := by omega
        have hk1 : (Impl.keys m1.m_impl)[t - 1 + 1]? = none := by
          have e : t - 1 + 1 = t := by omega
          rw [himpl, hks, e]; exact List.getElem?_eq_none (by omega)
        refine ⟨_, loopIteration_Indexing1_last m1 hst (himpl ▸ hwf) (t - 1) _ hk hk1 hpr2, ?_⟩
        refine ⟨himpl, ?_⟩
        have hfull : ks.take t = ks := List.take_of_length_le (by omega)
        rw [hnn, hks, if_neg (by omega), if_neg (by omega), if_pos (by omega)]
        refine ⟨?_, ?_, rfl, ?_, ?_, ?_⟩
        · show m1.m_index_level1 ++ [ks[t - 1]] = _
          rw [hl1, htake, hfull]
        · show m1.m_index_iter ++ [Iterator.node ks[t - 1]] = _
          rw [hit, hmap, htake, hfull]
        · show (0 : Int) = _
          have e : t + 1 - n - 1 = 0 := by omega
          rw [e]; rfl
        · show ([] : List K).length = _
          have e : t + 1 - n - 1 = 0 := by omega
          rw [e]; rfl
        · intro j hj0; omega
    · rw [if_neg h1] at hph
      obtain ⟨hl1, hit, hph⟩ := hph
      have h3 : t ≤ n + 1 + (n + 255) / 256 := by omega
      rw [if_pos h3] at hph
      obtain ⟨hst, hlv, hlen, hsam⟩ := hph
      by_cases h4 : 256 * (t - n - 1) < n
      · -- an Indexing2 iteration that samples a key
        have hidx : 256 * (t - n - 1) < ks.length := by omega
        have hkey : m1.m_index_level1[256 * (t - n - 1)]? = some ks[256 * (t - n - 1)] := by
          rw [hl1]; exact List.getElem?_eq_getElem hidx
        refine ⟨_, loopIteration_Indexing2_more m1 hst (t - n - 1) _ hlv hkey (by omega), ?_⟩
        refine ⟨himpl, ?_⟩
        rw [hnn, hks, if_neg (by omega), if_neg (by omega), if_pos (by omega)]
        have e : t + 1 - n - 1 = t - n - 1 + 1 := by omega
        rw [e]
        refine ⟨hl1, hit, hst, rfl, ?_, ?_⟩
        · show (m1.m_index_level2 ++ [ks[256 * (t - n - 1)]]).length = _
          rw [List.length_append, hlen]; rfl
        · intro j hj
          show (m1.m_index_level2 ++ [ks[256 * (t - n - 1)]])[j]? = _
          by_cases hjs : j < t - n - 1
          · rw [List.getElem?_append_left (by omega)]
            exact hsam j hjs
          · have hje : j = t - n - 1 := by omega
            subst hje
            rw [List.getElem?_append_right (by omega), hlen, Nat.sub_self]
            exact (List.getElem?_eq_getElem hidx).symm
      · -- the last Indexing2 iteration
        have hge : m1.m_index_level1.length ≤ 256 * (t - n - 1) := by rw [hl1]; omega
        refine ⟨_, loopIteration_Indexing2_done m1 hst (t - n - 1) hlv hge (by omega), ?_⟩
        refine ⟨himpl, ?_⟩
        rw [hnn, hks, if_neg (by omega), if_neg (by omega), if_neg (by omega)]
        have hL : t - n - 1 = (ks.length + 255) / 256 := by omega
        refine ⟨hl1, hit, rfl, ?_, ?_⟩
        · show m1.m_index_level2.length = _
          rw [hlen, hL]
        · intro j hj
          exact hsam j (by rw [hlen] at hj; exact hj)

theorem build_trace (m : BkIdxMap K V) (hst : m.m_state = State.Mutated)
    (hwf : Impl.WellFormed m.m_impl) (hn : 1 ≤ m.m_impl.length)
    (hsz : m.m_impl.length + 256 ≤ 2147483648) (t : Nat)
    (ht : t ≤ m.m_impl.length + (m.m_impl.length + 255) / 256 + 2) :
    ∃ m1, loopIterations t m = some m1 ∧ BuildPhase m t m1 := by
  induction t with
  | zero => exact ⟨m, rfl, rfl, by rw [if_pos rfl]; exact hst⟩
  | succ t ih =>
    obtain ⟨m1, hrun, hph⟩ := ih (by omega)
    obtain ⟨m2, hstep, hph2⟩ := BuildPhase.next m hwf hn hsz t (by omega) m1 hph
    exact ⟨m2, by rw [loopIterations_succ, hrun]; exact hstep, hph2⟩

omit [LinearOrder K] in
theorem BuildPhase.not_stable (m : BkIdxMap K V) (t : Nat)
    (ht : t < m.m_impl.length + (m.m_impl.length + 255) / 256 + 2) (m1 : BkIdxMap K V)
    (h : BuildPhase m t m1) : m1.m_state ≠ State.Stable := by
  obtain ⟨-, hph⟩ := h
  by_cases h0 : t = 0
  · rw [if_pos h0] at hph; rw [hph]; decide
  · rw [if_neg h0] at hph
    by_cases h1 : t ≤ m.m_impl.length
    · rw [if_pos h1] at hph; rw [hph.1]; decide
    · rw [if_neg h1, if_pos (by omega)] at hph
      rw [hph.2.2.1]; decide

omit [LinearOrder K] in
theorem BuildPhase.final (m : BkIdxMap K V) (hn : 1 ≤ m.m_impl.length) (m1 : BkIdxMap K V)
    (h : BuildPhase m (m.m_impl.length + (m.m_impl.length + 255) / 256 + 2) m1) :
    m1.m_impl = m.m_impl ∧ m1.m_state = State.Stable ∧
      m1.m_index_level1 = Impl.keys m.m_impl ∧
      m1.m_index_iter = (Impl.keys m.m_impl).map Iterator.node ∧
      SampledEvery (Impl.keys m.m_impl) m1.m_index_level2 := by
  obtain ⟨himpl, hph⟩ := h
  rw [if_neg (by omega), if_neg (by omega), if_neg (by omega)] at hph
  exact ⟨himpl, hph.2.2.1, hph.1, hph.2.1, hph.2.2.2⟩

theorem runUntilStable_of_trace (T : Nat) :
    ∀ (m m1 : BkIdxMap K V), loopIterations T m = some m1 → m1.m_state = State.Stable →
      (∀ t, t < T → ∃ mt, loopIterations t m = some mt ∧ mt.m_state ≠ State.Stable) →
      ∀ fuel, T ≤ fuel → runUntilStable fuel m = some m1 := by
  induction T with
  | zero =>
    intro m m1 hrun hst _ fuel _
    simp only [loopIterations, Option.some.injEq] at hrun
    subst hrun
    cases fuel <;> simp [runUntilStable, hst]
  | succ T ih =>
    intro m m1 hrun hst hbefore fuel hfuel
    obtain ⟨m0, h0, hns⟩ := hbefore 0 (by omega)
    simp only [loopIterations, Option.some.injEq] at h0
    subst h0
    cases hstep : loopIteration m with
    | none => simp [loopIterations, hstep] at hrun
    | some m2 =>
      have hrun2 : loopIterations T m2 = some m1 := by
        simpa [loopIterations, hstep] using hrun
      have hbefore2 : ∀ t, t < T → ∃ mt, loopIterations t m2 = some mt ∧
          mt.m_state ≠ State.Stable := by
        intro t ht
        obtain ⟨mt, hmt, hne⟩ := hbefore (t + 1) (by omega)
        exact ⟨mt, by simpa [loopIterations, hstep] using hmt, hne⟩
      cases fuel with
      | zero => omega
      | succ f =>
        simp only [runUntilStable, hns, if_false, hstep, Option.some_bind]
        exact ih m2 m1 hrun2 hst hbefore2 f (by omega)

/-- The build, from start to end: run alone from state Mutated on a container of n ≥ 1 entries,
the index thread reaches Stable after exactly n + ceil(n / 256) + 2 loop iterations, and the
index arrays then describe the container. -/
theorem build_complete (m : BkIdxMap K V) (hst : m.m_state = State.Mutated)
    (hwf : Impl.WellFormed m.m_impl) (hn : 1 ≤ m.m_impl.length)
    (hsz : m.m_impl.length + 256 ≤ 2147483648) :
    ∃ m1, loopIterations (m.m_impl.length + (m.m_impl.length + 255) / 256 + 2) m = some m1 ∧
      (∀ fuel, m.m_impl.length + (m.m_impl.length + 255) / 256 + 2 ≤ fuel →
        runUntilStable fuel m = some m1) ∧
      (∀ t, t < m.m_impl.length + (m.m_impl.length + 255) / 256 + 2 →
        ∃ mt, loopIterations t m = some mt ∧ mt.m_state ≠ State.Stable) ∧
      m1.m_impl = m.m_impl ∧ m1.m_state = State.Stable ∧
      m1.m_index_level1 = Impl.keys m.m_impl ∧
      m1.m_index_iter = (Impl.keys m.m_impl).map Iterator.node ∧
      SampledEvery (Impl.keys m.m_impl) m1.m_index_level2 := by
  obtain ⟨m1, hrun, hph⟩ := build_trace m hst hwf hn hsz _ (le_refl _)
  have hfin := BuildPhase.final m hn m1 hph
  have hbefore : ∀ t, t < m.m_impl.length + (m.m_impl.length + 255) / 256 + 2 →
      ∃ mt, loopIterations t m = some mt ∧ mt.m_state ≠ State.Stable := by
    intro t ht
    obtain ⟨mt, hmt, hpt⟩ := build_trace m hst hwf hn hsz t (by omega)
    exact ⟨mt, hmt, BuildPhase.not_stable m t ht mt hpt⟩
  exact ⟨m1, hrun, runUntilStable_of_trace _ m m1 hrun hfin.2.1 hbefore, hbefore, hfin⟩

/-! ### Inserting into the container -/

theorem Impl.mem_keys_insert (m : Impl K V) (k : K) (v : V) (x : K) :
    x ∈ Impl.keys (Impl.insert m k v) ↔ x = k ∨ x ∈ Impl.keys m := by
  induction m with
  | nil => simp [Impl.insert, Impl.keys]
  | cons e rest ih =>
    obtain ⟨k', v'⟩ := e
    by_cases h1 : k < k'
    · simp [Impl.insert, h1, Impl.keys]
    · by_cases h2 : k' < k
      · have ih' : x ∈ List.map Prod.fst (Impl.insert rest k v) ↔
            x = k ∨ x ∈ List.map Prod.fst rest := ih
        simp only [Impl.insert, h1, h2, if_true, if_false, Impl.keys, List.map_cons,
          List.mem_cons, ih']
        tauto
      · have he : k' = k := le_antisymm (not_lt.mp h1) (not_lt.mp h2)
        subst he
        simp only [Impl.insert, h1, if_false, Impl.keys, List.map_cons, List.mem_cons]
        tauto

theorem Impl.insert_wellFormed (m : Impl K V) (hwf : Impl.WellFormed m) (k : K) (v : V) :
    Impl.WellFormed (Impl.insert m k v) := by
  induction m with
  | nil => simp [Impl.insert, Impl.WellFormed, Impl.keys]
  | cons e rest ih =>
    obtain ⟨k', v'⟩ := e
    have hwf' : Impl.WellFormed rest := (List.pairwise_cons.mp hwf).2
    have hhead : ∀ x ∈ Impl.keys rest, k' < x := (List.pairwise_cons.mp hwf).1
    by_cases h1 : k < k'
    · simp only [Impl.insert, h1, if_true]
      refine List.pairwise_cons.mpr ⟨?_, hwf⟩
      intro x hx
      have hx' : x = k' ∨ x ∈ Impl.keys rest := by
        simpa [Impl.keys] using hx
      rcases hx' with e | e
      · rw [e]; exact h1
      · exact lt_trans h1 (hhead x e)
    · by_cases h2 : k' < k
      · simp only [Impl.insert, h1, h2, if_true, if_false]
        refine List.pairwise_cons.mpr ⟨?_, ih hwf'⟩
        intro x hx
        rcases (Impl.mem_keys_insert rest k v x).mp hx with e | e
        · rw [e]; exact h2
        · exact hhead x e
      · simp only [Impl.insert, h1, h2, if_false]
        exact hwf

theorem Impl.length_insert (m : Impl K V) (k : K) (v : V) (hk : k ∉ Impl.keys m) :
    (Impl.insert m k v).length = m.length + 1 := by
  induction m with
  | nil => simp [Impl.insert]
  | cons e rest ih =>
    obtain ⟨k', v'⟩ := e
    have hk' : k ≠ k' ∧ k ∉ Impl.keys rest := by
      simpa [Impl.keys] using hk
    by_cases h1 : k < k'
    · simp [Impl.insert, h1]
    · by_cases h2 : k' < k
      · simp only [Impl.insert, h1, h2, if_true, if_false, List.length_cons]
        rw [ih hk'.2]
      · exact absurd (le_antisymm (not_lt.mp h2) (not_lt.mp h1)) hk'.1

theorem AddAll_spec (kvs : List (K × V)) :
    ∀ (m : BkIdxMap K V), m.m_state ≠ State.Mutating → Impl.WellFormed m.m_impl →
      (kvs.map Prod.fst).Nodup → (∀ k ∈ kvs.map Prod.fst, k ∉ Impl.keys m.m_impl) →
      ∃ m1, AddAll kvs m = some m1 ∧ Impl.WellFormed m1.m_impl ∧
        m1.m_impl.length = m.m_impl.length + kvs.length ∧
        (kvs = [] → m1.m_state = m.m_state) ∧ (kvs ≠ [] → m1.m_state = State.Mutated) := by
  induction kvs with
  | nil =>
    intro m _ hwf _ _
    exact ⟨m, rfl, hwf, rfl, fun _ => rfl, fun h => absurd rfl h⟩
  | cons e rest ih =>
    obtain ⟨k, v⟩ := e
    intro m hst hwf hnd hfresh
    have hnd' : k ∉ rest.map Prod.fst ∧ (rest.map Prod.fst).Nodup := by
      simpa using hnd
    have hk : k ∉ Impl.keys m.m_impl := hfresh k (by simp)
    have hadd : BkIdxMap.Add m k v =
        some (Unlock { m with m_impl := Impl.insert m.m_impl k v }) := by
      simp [BkIdxMap.Add, Lock_of_ne_Mutating m hst]
    obtain ⟨m1, hrun, hwf1, hlen1, hs1, hs2⟩ :=
      ih (Unlock { m with m_impl := Impl.insert m.m_impl k v }) (by simp [Unlock])
        (Impl.insert_wellFormed m.m_impl hwf k v) hnd'.2
        (by
          intro x hx hmem
          rcases (Impl.mem_keys_insert m.m_impl k v x).mp hmem with e | e
          · exact hnd'.1 (e ▸ hx)
          · exact hfresh x (List.mem_cons_of_mem _ hx) e)
    refine ⟨m1, ?_, hwf1, ?_, ?_, ?_⟩
    · simp only [AddAll, hadd, Option.some_bind]; exact hrun
    · rw [hlen1]
      show (Impl.insert m.m_impl k v).length + rest.length = _
      rw [Impl.length_insert m.m_impl k v hk, List.length_cons]; omega
    · intro h; cases h
    · intro _
      -- the state after the first Add is Mutated and no later Add changes that
      by_cases hr : rest = []
      · rw [hs1 hr]; rfl
      · exact hs2 hr

theorem staleSample_length : staleSample.m_impl.length = 300 := by
  show ((List.range 300).map fun (i : Nat) => (2 * (i : Int), 2 * (i : Int) + 1)).length = 300
  rw [List.length_map, List.length_range]

theorem staleSample_wellFormed : Impl.WellFormed staleSample.m_impl := by
  show (((List.range 300).map fun (i : Nat) => (2 * (i : Int), 2 * (i : Int) + 1)).map
    Prod.fst).Pairwise (· < ·)
  rw [List.map_map, List.pairwise_map]
  exact (List.pairwise_lt_range 300).imp (fun h => by simp only [Function.comp]; omega)

/-! ### The section searched by the indexed `Find` -/

theorem FindIndexed_eq_FindSection (m : BkIdxMap K V) (k : K) :
    FindIndexed m k =
      (FindSection m k).bind fun r =>
        if r.2.2 = m.m_index_level1.length then some (End m)
        else match m.m_index_level1[r.2.2]? with
          | none => none
          | some x => if x ≠ k then some (End m) else m.m_index_iter[r.2.2]? := by
  unfold FindIndexed FindSection
  simp only [Option.bind_assoc]
  congr 1
  funext d
  congr 1
  funext s
  split
  · rfl
  · rfl

theorem FindSection_char (m : BkIdxMap K V) (k : K)
    (hs : m.m_index_level1.Pairwise (· < ·))
    (h2 : SampledEvery m.m_index_level1 m.m_index_level2)
    (hsz : m.m_index_level1.length < 2147483648) :
    ∃ j f, j ≤ m.m_index_level2.length ∧
      j = lower_bound m.m_index_level2 0 m.m_index_level2.length k ∧
      (∀ i x, i < j → m.m_index_level2[i]? = some x → x < k) ∧
      (∀ i x, j ≤ i → m.m_index_level2[i]? = some x → k ≤ x) ∧
      FindSection m k =
        some (256 * (j - 1),
          256 * (j - 1) + min (m.m_index_level1.length - 256 * (j - 1)) 256, f) ∧
      256 * (j - 1) ≤ m.m_index_level1.length ∧
      toSizeT ((m.m_index_level1.length : Int) - ((256 * (j - 1) : Nat) : Int)) =
        m.m_index_level1.length - 256 * (j - 1) ∧
      256 * (j - 1) ≤ f ∧
      f ≤ 256 * (j - 1) + min (m.m_index_level1.length - 256 * (j - 1)) 256 ∧
      (∀ i x, 256 * (j - 1) ≤ i → i < f → m.m_index_level1[i]? = some x → x < k) ∧
      (∀ i x, f ≤ i → i < 256 * (j - 1) + min (m.m_index_level1.length - 256 * (j - 1)) 256 →
        m.m_index_level1[i]? = some x → k ≤ x) := by
  have hs2 := sampled_sorted hs h2
  obtain ⟨hL, hsamp⟩ := h2
  obtain ⟨-, a2, a3, a4⟩ := lower_bound_spec m.m_index_level2 k hs2 0 m.m_index_level2.length
    (Nat.zero_le _) (le_refl _)
  generalize hj : lower_bound m.m_index_level2 0 m.m_index_level2.length k = j2 at a2 a3 a4
  generalize hn : m.m_index_level1.length = n at *
  generalize hLL : m.m_index_level2.length = L at *
  have hstart : 256 * (j2 - 1) ≤ n := by omega
  have e1 : intArith (toInt (j2 : Int) - 1) = some ((j2 : Int) - 1) := by
    rw [toInt_of_range (by omega) (by omega)]
    exact intArith_of_range (by omega) (by omega)
  have e2 : intArith (step * max 0 ((j2 : Int) - 1)) = some ((256 * (j2 - 1) : Nat) : Int) := by
    have e : step * max 0 ((j2 : Int) - 1) = ((256 * (j2 - 1) : Nat) : Int) := by
      unfold step; omega
    rw [e]
    exact intArith_of_range (by omega) (by omega)
  have e3 : toSizeT (((n : Nat) : Int) - ((256 * (j2 - 1) : Nat) : Int)) =
      n - 256 * (j2 - 1) := by
    have e : ((n : Nat) : Int) - ((256 * (j2 - 1) : Nat) : Int) =
        ((n - 256 * (j2 - 1) : Nat) : Int) := by
      omega
    rw [e]
    exact toSizeT_natCast _ (by omega)
  have e4 : toSizeT step = 256 := by
    unfold step
    exact toSizeT_natCast 256 (by omega)
  have hrange : (0 : Int) ≤ ((256 * (j2 - 1) : Nat) : Int) ∧
      ((256 * (j2 - 1) : Nat) : Int) ≤ ((n : Nat) : Int) := by omega
  obtain ⟨b1, b2, b3, b4⟩ := lower_bound_spec m.m_index_level1 k hs (256 * (j2 - 1))
    (256 * (j2 - 1) + min (n - 256 * (j2 - 1)) 256) (by omega) (by omega)
  generalize hp : lower_bound m.m_index_level1 (256 * (j2 - 1))
    (256 * (j2 - 1) + min (n - 256 * (j2 - 1)) 256) k = p at b1 b2 b3 b4
  have hsec : FindSection m k =
      some (256 * (j2 - 1), 256 * (j2 - 1) + min (n - 256 * (j2 - 1)) 256, p) := by
    simp only [FindSection, hj, hLL, e1, Option.some_bind, hn, e2, hrange, and_self, if_true, e3,
      e4, Int.toNat_ofNat, hp]
  refine ⟨j2, p, a2, rfl, ?_, ?_, hsec, hstart, e3, b1, b2, b3, b4⟩
  · intro i x hi hx; exact a3 i x (Nat.zero_le _) hi hx
  · intro i x hi hx
    have hiL : i < L := by rw [← hLL]; exact (List.getElem?_eq_some.mp hx).1
    exact a4 i x hi hiL hx

theorem FindIndexed_of_FindSection (m : BkIdxMap K V) (k : K) (s e f : Nat)
    (h : FindSection m k = some (s, e, f)) :
    FindIndexed m k =
      if f = m.m_index_level1.length then some (End m)
      else match m.m_index_level1[f]? with
        | none => none
        | some x => if x ≠ k then some (End m) else m.m_index_iter[f]? := by
  rw [FindIndexed_eq_FindSection, h]
  rfl

/-! ### Sequences of mutating calls -/

theorem Mutator.call_spec (c : Mutator K V) (m : BkIdxMap K V)
    (hst : m.m_state ≠ State.Mutating) :
    ∃ m1, Mutator.call c m = some m1 ∧ m1.m_state = State.Mutated := by
  cases c with
  | Add k v =>
    exact ⟨Unlock { m with m_impl := Impl.insert m.m_impl k v },
      by simp [Mutator.call, BkIdxMap.Add, Lock_of_ne_Mutating m hst], rfl⟩
  | Remove k =>
    exact ⟨Unlock { m with m_impl := Impl.erase m.m_impl k },
      by simp [Mutator.call, BkIdxMap.Remove, Lock_of_ne_Mutating m hst], rfl⟩
  | Clear =>
    exact ⟨Unlock { m with m_impl := Impl.clear m.m_impl },
      by simp [Mutator.call, BkIdxMap.Clear, Lock_of_ne_Mutating m hst], rfl⟩

theorem callAll_spec (ops : List (Mutator K V)) :
    ∀ (m : BkIdxMap K V), m.m_state ≠ State.Mutating →
      ∃ m1, callAll ops m = some m1 ∧ (ops = [] → m1 = m) ∧
        (ops ≠ [] → m1.m_state = State.Mutated) := by
  induction ops with
  | nil => intro m _; exact ⟨m, rfl, fun _ => rfl, fun h => absurd rfl h⟩
  | cons c rest ih =>
    intro m hst
    obtain ⟨m1, hcall, hst1⟩ := Mutator.call_spec c m hst
    obtain ⟨m2, hrun, h0, h1⟩ := ih m1 (by rw [hst1]; decide)
    have hrun2 : callAll (c :: rest) m = some m2 := by
      simp only [callAll, hcall, Option.some_bind]; exact hrun
    refine ⟨m2, hrun2, fun h => (by cases h), fun _ => ?_⟩
    by_cases hr : rest = []
    · rw [h0 hr]; exact hst1
    · exact h1 hr

/-! ### Erasing from the container -/

theorem Impl.lookup_erase_self (m : Impl K V) (k : K) :
    Impl.lookup (Impl.erase m k) k = none := by
  induction m with
  | nil => rfl
  | cons e rest ih =>
    obtain ⟨k', v'⟩ := e
    by_cases h : k' = k
    · have e1 : Impl.erase ((k', v') :: rest) k = Impl.erase rest k := by
        simp [Impl.erase, List.filter, h]
      rw [e1]; exact ih
    · have e1 : Impl.erase ((k', v') :: rest) k = (k', v') :: Impl.erase rest k := by
        simp [Impl.erase, List.filter, h]
      rw [e1]
      simp only [Impl.lookup, h, if_false]
      exact ih

theorem Impl.lookup_erase_other (m : Impl K V) (k k1 : K) (hne : k1 ≠ k) :
    Impl.lookup (Impl.erase m k) k1 = Impl.lookup m k1 := by
  induction m with
  | nil => rfl
  | cons e rest ih =>
    obtain ⟨k', v'⟩ := e
    by_cases h : k' = k
    · have e1 : Impl.erase ((k', v') :: rest) k = Impl.erase rest k := by
        simp [Impl.erase, List.filter, h]
      have h2 : k' ≠ k1 := by rw [h]; exact fun e => hne e.symm
      rw [e1, ih]
      simp only [Impl.lookup, h2, if_false]
    · have e1 : Impl.erase ((k', v') :: rest) k = (k', v') :: Impl.erase rest k := by
        simp [Impl.erase, List.filter, h]
      rw [e1]
      simp only [Impl.lookup, ih]

theorem Impl.mem_erase (m : Impl K V) (k : K) (e : K × V) :
    e ∈ Impl.erase m k ↔ e ∈ m ∧ e.1 ≠ k := by
  simp [Impl.erase, List.mem_filter]

theorem Impl.erase_of_not_mem (m : Impl K V) (k : K) (hk : k ∉ Impl.keys m) :
    Impl.erase m k = m := by
  unfold Impl.erase
  rw [List.filter_eq_self]
  intro e he
  have : e.1 ≠ k := by
    intro h
    exact hk (h ▸ List.mem_map_of_mem Prod.fst he)
  simp [this]

/-! ### The cases of the index thread -/

/-- What a `case` of the index thread can leave behind: the statements of a case write
`m_state` only in the cases Quit and MutateBegin, and a pending compare-exchange expects the
state that was read and asks for its successor in the build. -/
theorem caseBody_spec (seen : State) (m m1 : BkIdxMap K V) (nxt : BgNext)
    (h : caseBody seen m = some (m1, nxt)) :
    (m1.m_state = m.m_state ∨ (seen = State.Quit ∧ m1.m_state = State.QuitDone) ∨
        (seen = State.MutateBegin ∧ m1.m_state = State.Stable)) ∧
      m1.m_impl = m.m_impl ∧
      (nxt = BgNext.exit ↔ seen = State.Quit) ∧
      ∀ e d, nxt = BgNext.cas e d →
        e = seen ∧ m1.m_state = m.m_state ∧
          ((e = State.Mutated ∧ d = State.Indexing1) ∨
            (e = State.Indexing1 ∧ d = State.Indexing2) ∨
            (e = State.Indexing2 ∧ d = State.Stable)) := by
  cases seen with
  | Stable =>
    simp only [caseBody, Option.some.injEq, Prod.mk.injEq] at h
    obtain ⟨rfl, rfl⟩ := h
    simp
  | MutateBegin =>
    simp only [caseBody, Option.some.injEq, Prod.mk.injEq] at h
    obtain ⟨rfl, rfl⟩ := h
    simp
  | Mutating =>
    simp only [caseBody, Option.some.injEq, Prod.mk.injEq] at h
    obtain ⟨rfl, rfl⟩ := h
    simp
  | Mutated =>
    simp only [caseBody, Option.some.injEq, Prod.mk.injEq] at h
    obtain ⟨rfl, rfl⟩ := h
    simp
  | Indexing1 =>
    simp only [caseBody] at h
    cases hd : Impl.deref m.m_impl m.progress with
    | none => rw [hd] at h; simp at h
    | some key =>
      cases hn : Impl.next m.m_impl m.progress with
      | none => rw [hd, hn] at h; simp at h
      | some p1 =>
        rw [hd, hn] at h
        simp only [Option.some_bind] at h
        split at h
        · simp only [Option.some.injEq, Prod.mk.injEq] at h
          obtain ⟨rfl, rfl⟩ := h
          simp
        · simp only [Option.some.injEq, Prod.mk.injEq] at h
          obtain ⟨rfl, rfl⟩ := h
          simp
  | Indexing2 =>
    simp only [caseBody] at h
    split at h
    · simp only [Option.some.injEq, Prod.mk.injEq] at h
      obtain ⟨rfl, rfl⟩ := h
      simp
    · cases hk : m.m_index_level1[toSizeT m.lvl2_index]? with
      | none => rw [hk] at h; simp at h
      | some key =>
        cases hi : intArith (m.lvl2_index + step) with
        | none => rw [hk, hi] at h; simp at h
        | some l1 =>
          rw [hk, hi] at h
          simp only [Option.some_bind, Option.some.injEq, Prod.mk.injEq] at h
          obtain ⟨rfl, rfl⟩ := h
          simp
  | Quit =>
    simp only [caseBody, Option.some.injEq, Prod.mk.injEq] at h
    obtain ⟨rfl, rfl⟩ := h
    simp
  | QuitDone =>
    simp only [caseBody, Option.some.injEq, Prod.mk.injEq] at h
    obtain ⟨rfl, rfl⟩ := h
    simp

/-- A step of the foreground thread leaves the place of the index thread as it is. -/
theorem fgStep_keeps_bg {s s1 : Sys K V} (hs : Sys.fgStep s = some s1) : s1.bg = s.bg := by
  unfold Sys.fgStep at hs
  cases hfgs : s.fg with
  | nil => rw [hfgs] at hs; simp at hs
  | cons i rest =>
    rw [hfgs] at hs
    cases i with
    | lock =>
      dsimp only at hs
      cases hpc : s.lockPc with
      | enter =>
        rw [hpc] at hs
        dsimp only at hs
        split at hs <;> (simp only [Option.some.injEq] at hs; subst hs; rfl)
      | announce =>
        rw [hpc] at hs
        simp only [Option.some.injEq] at hs
        subst hs; rfl
      | spin =>
        rw [hpc] at hs
        dsimp only at hs
        split at hs <;> (simp only [Option.some.injEq] at hs; subst hs; rfl)
      | claim =>
        rw [hpc] at hs
        simp only [Option.some.injEq] at hs
        subst hs; rfl
    | unlock => simp only [Option.some.injEq] at hs; subst hs; rfl
    | insert k v => simp only [Option.some.injEq] at hs; subst hs; rfl
    | erase k => simp only [Option.some.injEq] at hs; subst hs; rfl
    | clear => simp only [Option.some.injEq] at hs; subst hs; rfl
    | find k =>
      dsimp only at hs
      cases hf : BkIdxMap.Find s.map k with
      | none => rw [hf] at hs; simp at hs
      | some it =>
        rw [hf] at hs
        simp only [Option.map_some', Option.some.injEq] at hs
        subst hs; rfl
    | storeQuit => simp only [Option.some.injEq] at hs; subst hs; rfl
    | awaitQuitDone =>
      dsimp only at hs
      split at hs <;> (simp only [Option.some.injEq] at hs; subst hs; rfl)
    | join =>
      dsimp only at hs
      split at hs
      · split at hs <;> (simp only [Option.some.injEq] at hs; subst hs; rfl)
      · simp at hs

/-- Steps of the foreground thread alone, calls and their atomic steps, leave the place of the
index thread as it is. -/
theorem foreground_run_keeps_bg (acts : List (Action K V)) :
    ∀ (s s1 : Sys K V), (∀ a ∈ acts, a ≠ Action.bg) → Sys.run s acts = some s1 →
      s1.bg = s.bg := by
  induction acts with
  | nil =>
    intro s s1 _ h
    simp only [Sys.run, Option.some.injEq] at h
    subst h; rfl
  | cons a rest ih =>
    intro s s1 hfg h
    simp only [Sys.run] at h
    cases hstep : Sys.step s a with
    | none => rw [hstep] at h; simp at h
    | some s2 =>
      rw [hstep] at h
      simp only [Option.some_bind] at h
      have h2 : s2.bg = s.bg := by
        cases a with
        | call op =>
          simp only [Sys.step] at hstep
          split at hstep
          · simp only [Option.some.injEq] at hstep; subst hstep; rfl
          · simp at hstep
        | fg => exact fgStep_keeps_bg hstep
        | bg => exact absurd rfl (hfg Action.bg (List.mem_cons_self _ _))
      rw [ih s2 s1 (fun x hx => hfg x (List.mem_cons_of_mem _ hx)) h, h2]

/-- The statements of the three build cases: they write neither the state nor the container,
and they end at the compare-exchange from the state read to its successor exactly when the
case is Mutated, or Indexing1 with the increment reaching the end, or Indexing2 with the
sample position at or past the end of level 1; otherwise they go back to the head of the
loop. -/
theorem caseBody_build (x y : State) (m m1 : BkIdxMap K V) (nxt : BgNext)
    (hxy : (x = State.Mutated ∧ y = State.Indexing1) ∨
      (x = State.Indexing1 ∧ y = State.Indexing2) ∨ (x = State.Indexing2 ∧ y = State.Stable))
    (h : caseBody x m = some (m1, nxt)) :
    m1.m_state = m.m_state ∧ m1.m_impl = m.m_impl ∧
      (nxt = BgNext.cas x y ↔
        (x = State.Mutated ∨
          (x = State.Indexing1 ∧ Impl.next m.m_impl m.progress = some Iterator.pastEnd) ∨
          (x = State.Indexing2 ∧ toSizeT m.lvl2_index ≥ m.m_index_level1.length))) ∧
      (nxt ≠ BgNext.cas x y → nxt = BgNext.loop) := by
  rcases hxy with ⟨rfl, rfl⟩ | ⟨rfl, rfl⟩ | ⟨rfl, rfl⟩
  · simp only [caseBody, Option.some.injEq, Prod.mk.injEq] at h
    obtain ⟨rfl, rfl⟩ := h
    simp
  · simp only [caseBody] at h
    cases hd : Impl.deref m.m_impl m.progress with
    | none => rw [hd] at h; simp at h
    | some key =>
      cases hn : Impl.next m.m_impl m.progress with
      | none => rw [hd, hn] at h; simp at h
      | some p1 =>
        rw [hd, hn] at h
        simp only [Option.some_bind] at h
        split at h
        · rename_i hp
          simp only [Option.some.injEq, Prod.mk.injEq] at h
          obtain ⟨rfl, rfl⟩ := h
          simp [hp]
        · rename_i hp
          simp only [Option.some.injEq, Prod.mk.injEq] at h
          obtain ⟨rfl, rfl⟩ := h
          simp [hp]
  · simp only [caseBody] at h
    split at h
    · rename_i hp
      simp only [Option.some.injEq, Prod.mk.injEq] at h
      obtain ⟨rfl, rfl⟩ := h
      simp [hp]
    · rename_i hp
      cases hk : m.m_index_level1[toSizeT m.lvl2_index]? with
      | none => rw [hk] at h; simp at h
      | some key =>
        cases hi : intArith (m.lvl2_index + step) with
        | none => rw [hk, hi] at h; simp at h
        | some l1 =>
          rw [hk, hi] at h
          simp only [Option.some_bind, Option.some.injEq, Prod.mk.injEq] at h
          obtain ⟨rfl, rfl⟩ := h
          simp only [ge_iff_le, not_le] at hp
          simp [hp]

/-! ### The handshake of `Lock` -/

omit [LinearOrder K] in
theorem NoHandshake.at_init : NoHandshake (Sys.init : Sys K V) := by
  refine ⟨by simp [Sys.init, BkIdxMap.fresh], by simp [Sys.init, BkIdxMap.fresh], rfl, ?_, ?_⟩
  · intro seen h; simp [Sys.init] at h
  · intro e d h; simp [Sys.init] at h

theorem NoHandshake.after_fgStep {s s1 : Sys K V} (h : NoHandshake s)
    (hs : Sys.fgStep s = some s1) : NoHandshake s1 := by
  obtain ⟨hm, hb, hpc, hin, hcas⟩ := h
  unfold Sys.fgStep at hs
  cases hfgs : s.fg with
  | nil => rw [hfgs] at hs; simp at hs
  | cons i rest =>
    rw [hfgs] at hs
    cases i with
    | lock =>
      simp only [hpc, hm, if_false, Option.some.injEq] at hs
      subst hs
      exact ⟨hm, hb, rfl, hin, hcas⟩
    | unlock =>
      simp only [Option.some.injEq] at hs
      subst hs
      exact ⟨by simp [Unlock], by simp [Unlock], hpc, hin, hcas⟩
    | insert k v =>
      simp only [Option.some.injEq] at hs
      subst hs
      exact ⟨hm, hb, hpc, hin, hcas⟩
    | erase k =>
      simp only [Option.some.injEq] at hs
      subst hs
      exact ⟨hm, hb, hpc, hin, hcas⟩
    | clear =>
      simp only [Option.some.injEq] at hs
      subst hs
      exact ⟨hm, hb, hpc, hin, hcas⟩
    | find k =>
      dsimp only at hs
      cases hf : Find s.map k with
      | none => rw [hf] at hs; simp at hs
      | some it =>
        rw [hf] at hs
        simp only [Option.map_some', Option.some.injEq] at hs
        subst hs
        exact ⟨hm, hb, hpc, hin, hcas⟩
    | storeQuit =>
      simp only [Option.some.injEq] at hs
      subst hs
      exact ⟨by simp, by simp, hpc, hin, hcas⟩
    | awaitQuitDone =>
      dsimp only at hs
      split at hs
      · simp only [Option.some.injEq] at hs
        subst hs
        exact ⟨hm, hb, hpc, hin, hcas⟩
      · simp only [Option.some.injEq] at hs
        subst hs
        exact ⟨hm, hb, hpc, hin, hcas⟩
    | join =>
      dsimp only at hs
      split at hs
      · split at hs
        · simp only [Option.some.injEq] at hs
          subst hs
          exact ⟨hm, hb, hpc, hin, hcas⟩
        · simp only [Option.some.injEq] at hs
          subst hs
          exact ⟨hm, hb, hpc, hin, hcas⟩
      · simp at hs

theorem NoHandshake.after_bgStep {s s1 : Sys K V} (h : NoHandshake s)
    (hs : Sys.bgStep s = some s1) : NoHandshake s1 := by
  obtain ⟨hm, hb, hpc, hin, hcas⟩ := h
  unfold Sys.bgStep at hs
  cases hbg : s.bg with
  | atSwitch =>
    rw [hbg] at hs
    dsimp only at hs
    simp only [Option.some.injEq] at hs
    subst hs
    refine ⟨hm, hb, hpc, ?_, ?_⟩
    · intro seen hseen
      simp only [BgPc.inCase.injEq] at hseen
      subst hseen
      exact ⟨hm, hb⟩
    · intro e d hed; simp at hed
  | inCase seen =>
    rw [hbg] at hs
    dsimp only at hs
    obtain ⟨hs1, hs2⟩ := hin seen hbg
    cases hc : caseBody seen s.map with
    | none => rw [hc] at hs; simp at hs
    | some r =>
      obtain ⟨m1, nxt⟩ := r
      rw [hc] at hs
      obtain ⟨hst, -, -, hpair⟩ := caseBody_spec seen s.map m1 nxt hc
      have hm1 : m1.m_state ≠ State.Mutating ∧ m1.m_state ≠ State.MutateBegin := by
        rcases hst with e | ⟨-, e⟩ | ⟨-, e⟩
        · rw [e]; exact ⟨hm, hb⟩
        · rw [e]; exact ⟨by decide, by decide⟩
        · rw [e]; exact ⟨by decide, by decide⟩
      simp only [Option.map_some', Option.some.injEq] at hs
      cases nxt with
      | loop =>
        subst hs
        exact ⟨hm1.1, hm1.2, hpc, by intro x hx; simp at hx, by intro e d hx; simp at hx⟩
      | cas e d =>
        subst hs
        refine ⟨hm1.1, hm1.2, hpc, by intro x hx; simp at hx, ?_⟩
        intro e1 d1 hx
        simp only [BgPc.atCas.injEq] at hx
        obtain ⟨rfl, rfl⟩ := hx
        exact (hpair e d rfl).2.2
      | wait =>
        subst hs
        exact ⟨hm1.1, hm1.2, hpc, by intro x hx; simp at hx, by intro e d hx; simp at hx⟩
      | exit =>
        subst hs
        exact ⟨hm1.1, hm1.2, hpc, by intro x hx; simp at hx, by intro e d hx; simp at hx⟩
  | atCas e d =>
    rw [hbg] at hs
    dsimp only at hs
    simp only [Option.some.injEq] at hs
    subst hs
    have hd : d ≠ State.Mutating ∧ d ≠ State.MutateBegin := by
      rcases hcas e d hbg with ⟨-, rfl⟩ | ⟨-, rfl⟩ | ⟨-, rfl⟩ <;> exact ⟨by decide, by decide⟩
    refine ⟨?_, ?_, hpc, by intro x hx; simp at hx, by intro e d hx; simp at hx⟩
    · show (compare_exchange_strong s.map e d).m_state ≠ State.Mutating
      unfold compare_exchange_strong
      split
      · exact hd.1
      · exact hm
    · show (compare_exchange_strong s.map e d).m_state ≠ State.MutateBegin
      unfold compare_exchange_strong
      split
      · exact hd.2
      · exact hb
  | inWait =>
    rw [hbg] at hs
    dsimp only at hs
    split at hs
    · simp only [Option.some.injEq] at hs
      subst hs
      exact ⟨hm, hb, hpc, hin, hcas⟩
    · simp only [Option.some.injEq] at hs
      subst hs
      exact ⟨hm, hb, hpc, by intro x hx; simp at hx, by intro e d hx; simp at hx⟩
  | finished => rw [hbg] at hs; simp at hs

theorem NoHandshake.after_step {s s1 : Sys K V} (h : NoHandshake s) (a : Action K V)
    (hs : Sys.step s a = some s1) : NoHandshake s1 := by
  cases a with
  | call op =>
    simp only [Sys.step] at hs
    split at hs
    · simp only [Option.some.injEq] at hs
      subst hs
      exact h
    · simp at hs
  | fg => exact h.after_fgStep hs
  | bg => exact h.after_bgStep hs

theorem NoHandshake.after_run {s s1 : Sys K V} (h : NoHandshake s) (acts : List (Action K V))
    (hs : Sys.run s acts = some s1) : NoHandshake s1 := by
  induction acts generalizing s with
  | nil =>
    simp only [Sys.run, Option.some.injEq] at hs
    subst hs
    exact h
  | cons a rest ih =>
    simp only [Sys.run] at hs
    cases hstep : Sys.step s a with
    | none => rw [hstep] at hs; simp at hs
    | some s2 =>
      rw [hstep] at hs
      exact ih (h.after_step a hstep) hs

theorem NoHandshake.of_reachable {s : Sys K V} (h : Sys.Reachable s) : NoHandshake s := by
  obtain ⟨acts, hrun⟩ := h
  exact NoHandshake.at_init.after_run acts hrun

/-! ### Shutdown -/

/-- No step of the index thread turns Quit into a state other than QuitDone. -/
theorem quit_only_becomes_QuitDone {s s1 : Sys K V} (h : NoHandshake s)
    (hq : s.map.m_state = State.Quit) (hs : Sys.bgStep s = some s1) :
    s1.map.m_state = State.Quit ∨ (s1.map.m_state = State.QuitDone ∧ s1.bg = BgPc.finished) := by
  obtain ⟨-, -, -, hin, hcas⟩ := h
  unfold Sys.bgStep at hs
  cases hbg : s.bg with
  | atSwitch =>
    rw [hbg] at hs
    simp only [Option.some.injEq] at hs
    subst hs
    exact Or.inl hq
  | inCase seen =>
    rw [hbg] at hs
    dsimp only at hs
    cases hc : caseBody seen s.map with
    | none => rw [hc] at hs; simp at hs
    | some r =>
      obtain ⟨m1, nxt⟩ := r
      rw [hc] at hs
      obtain ⟨hst, -, hexit, -⟩ := caseBody_spec seen s.map m1 nxt hc
      simp only [Option.map_some', Option.some.injEq] at hs
      rcases hst with e | ⟨hseen, e⟩ | ⟨hseen, -⟩
      · left
        cases nxt <;> (subst hs; exact e.trans hq)
      · right
        have hx : nxt = BgNext.exit := hexit.mpr hseen
        subst hx
        subst hs
        exact ⟨e, rfl⟩
      · exact absurd hseen (hin seen hbg).2
  | atCas e d =>
    rw [hbg] at hs
    simp only [Option.some.injEq] at hs
    subst hs
    left
    have hne : s.map.m_state ≠ e := by
      rw [hq]
      rcases hcas e d hbg with ⟨rfl, -⟩ | ⟨rfl, -⟩ | ⟨rfl, -⟩ <;> decide
    show (compare_exchange_strong s.map e d).m_state = State.Quit
    unfold compare_exchange_strong
    rw [if_neg hne]
    exact hq
  | inWait =>
    rw [hbg] at hs
    dsimp only at hs
    split at hs
    · simp only [Option.some.injEq] at hs
      subst hs
      exact Or.inl hq
    · simp only [Option.some.injEq] at hs
      subst hs
      exact Or.inl hq
  | finished => rw [hbg] at hs; simp at hs

/-- From the head of its loop the index thread acknowledges Quit in two steps. -/
theorem quit_acknowledged_atSwitch (s : Sys K V) (hbg : s.bg = BgPc.atSwitch)
    (hq : s.map.m_state = State.Quit) :
    ∃ s1, Sys.run s (List.replicate 2 Action.bg) = some s1 ∧ s1.bg = BgPc.finished ∧
      s1.map.m_state = State.QuitDone ∧ Sys.bgStep s1 = none := by
  refine ⟨{ s with map := { s.map with m_state := State.QuitDone }, bg := BgPc.finished },
    ?_, rfl, rfl, rfl⟩
  simp [List.replicate, Sys.run, Sys.step, Sys.bgStep, hbg, hq, caseBody]

/-- Shutdown is acknowledged whenever the iteration in flight is defined: once Quit is stored
and the foreground takes no further step, a live index thread whose pending `case` has defined
behaviour sets QuitDone and finishes within four of its steps. -/
theorem quit_acknowledged (s : Sys K V) (h : NoHandshake s) (hlive : s.bg ≠ BgPc.finished)
    (hq : s.map.m_state = State.Quit)
    (hdef : ∀ seen, s.bg = BgPc.inCase seen → (caseBody seen s.map).isSome = true) :
    ∃ n s1, n ≤ 4 ∧ Sys.run s (List.replicate n Action.bg) = some s1 ∧
      s1.bg = BgPc.finished ∧ s1.map.m_state = State.QuitDone ∧ Sys.bgStep s1 = none := by
  -- one step that leads back to the head of the loop with the state still Quit
  have back : ∀ (t : Sys K V), t.bg = BgPc.atSwitch → t.map.m_state = State.Quit →
      ∀ (u : Sys K V) (n : Nat), Sys.run u (List.replicate n Action.bg) = some t →
        ∃ s1, Sys.run u (List.replicate (n + 2) Action.bg) = some s1 ∧
          s1.bg = BgPc.finished ∧ s1.map.m_state = State.QuitDone ∧ Sys.bgStep s1 = none := by
    intro t htb htq u n hrun
    obtain ⟨s1, h1, h2, h3, h4⟩ := quit_acknowledged_atSwitch t htb htq
    refine ⟨s1, ?_, h2, h3, h4⟩
    rw [List.replicate_add, Sys.run_append, hrun]
    exact h1
  obtain ⟨-, -, -, hin, hcas⟩ := h
  cases hbg : s.bg with
  | atSwitch =>
    obtain ⟨s1, h1⟩ := back s hbg hq s 0 rfl
    exact ⟨2, s1, by omega, h1⟩
  | inCase seen =>
    have hsome := hdef seen hbg
    cases hc : caseBody seen s.map with
    | none => rw [hc] at hsome; simp at hsome
    | some r =>
      obtain ⟨m1, nxt⟩ := r
      obtain ⟨hst, -, hexit, hpair⟩ := caseBody_spec seen s.map m1 nxt hc
      have hstep : ∀ t, Sys.bgStep s = some t → Sys.run s (List.replicate 1 Action.bg) = some t := by
        intro t ht
        simp [List.replicate, Sys.run, Sys.step, ht]
      rcases hst with e | ⟨hseen, e⟩ | ⟨hseen, -⟩
      · have hm1 : m1.m_state = State.Quit := e.trans hq
        cases nxt with
        | loop =>
          have hb : Sys.bgStep s = some { s with map := m1, bg := BgPc.atSwitch } := by
            simp [Sys.bgStep, hbg, hc]
          obtain ⟨s1, h1⟩ := back _ rfl hm1 s 1 (hstep _ hb)
          exact ⟨3, s1, by omega, h1⟩
        | cas e1 d1 =>
          have hb : Sys.bgStep s = some { s with map := m1, bg := BgPc.atCas e1 d1 } := by
            simp [Sys.bgStep, hbg, hc]
          have hne : m1.m_state ≠ e1 := by
            rw [hm1]
            rcases (hpair e1 d1 rfl).2.2 with ⟨rfl, -⟩ | ⟨rfl, -⟩ | ⟨rfl, -⟩ <;> decide
          have hb2 : Sys.bgStep { s with map := m1, bg := BgPc.atCas e1 d1 } =
              some { s with map := m1, bg := BgPc.atSwitch } := by
            simp [Sys.bgStep, compare_exchange_strong, hne]
          have hrun2 : Sys.run s (List.replicate 2 Action.bg) =
              some { s with map := m1, bg := BgPc.atSwitch } := by
            simp [List.replicate, Sys.run, Sys.step, hb, hb2]
          obtain ⟨s1, h1⟩ := back _ rfl hm1 s 2 hrun2
          exact ⟨4, s1, by omega, h1⟩
        | wait =>
          have hb : Sys.bgStep s = some { s with map := m1, bg := BgPc.inWait } := by
            simp [Sys.bgStep, hbg, hc]
          have hns : m1.m_state ≠ State.Stable := by rw [hm1]; decide
          have hb2 : Sys.bgStep { s with map := m1, bg := BgPc.inWait } =
              some { s with map := m1, bg := BgPc.atSwitch } := by
            simp [Sys.bgStep, hns]
          have hrun2 : Sys.run s (List.replicate 2 Action.bg) =
              some { s with map := m1, bg := BgPc.atSwitch } := by
            simp [List.replicate, Sys.run, Sys.step, hb, hb2]
          obtain ⟨s1, h1⟩ := back _ rfl hm1 s 2 hrun2
          exact ⟨4, s1, by omega, h1⟩
        | exit =>
          have hb : Sys.bgStep s = some { s with map := m1, bg := BgPc.finished } := by
            simp [Sys.bgStep, hbg, hc]
          have hseen : seen = State.Quit := hexit.mp rfl
          subst hseen
          simp only [caseBody, Option.some.injEq, Prod.mk.injEq] at hc
          rw [← hc.1] at hm1
          simp at hm1
      · have hx : nxt = BgNext.exit := hexit.mpr hseen
        subst hx
        have hb : Sys.bgStep s = some { s with map := m1, bg := BgPc.finished } := by
          simp [Sys.bgStep, hbg, hc]
        exact ⟨1, _, by omega, hstep _ hb, rfl, e, rfl⟩
      · exact absurd hseen (hin seen hbg).2
  | atCas e d =>
    have hne : s.map.m_state ≠ e := by
      rw [hq]
      rcases hcas e d hbg with ⟨rfl, -⟩ | ⟨rfl, -⟩ | ⟨rfl, -⟩ <;> decide
    have hb : Sys.bgStep s = some { s with bg := BgPc.atSwitch } := by
      simp [Sys.bgStep, hbg, compare_exchange_strong, hne]
    have hrun1 : Sys.run s (List.replicate 1 Action.bg) = some { s with bg := BgPc.atSwitch } := by
      simp [List.replicate, Sys.run, Sys.step, hb]
    obtain ⟨s1, h1⟩ := back { s with bg := BgPc.atSwitch } rfl hq s 1 hrun1
    exact ⟨3, s1, by omega, h1⟩
  | inWait =>
    have hns : s.map.m_state ≠ State.Stable := by rw [hq]; decide
    have hb : Sys.bgStep s = some { s with bg := BgPc.atSwitch } := by
      simp [Sys.bgStep, hbg, hns]
    have hrun1 : Sys.run s (List.replicate 1 Action.bg) = some { s with bg := BgPc.atSwitch } := by
      simp [List.replicate, Sys.run, Sys.step, hb]
    obtain ⟨s1, h1⟩ := back { s with bg := BgPc.atSwitch } rfl hq s 1 hrun1
    exact ⟨3, s1, by omega, h1⟩
  | finished => exact absurd hbg hlive

end Lemmas

/-! ## The claims -/

section Claims

variable {K V : Type} [LinearOrder K]

open BkIdxMap

/-- C1: the indexed path of Find returns the entry for every stored key. For a strictly
ascending level 1 (of a length an int can hold) with a paired position array of the same
length and level 2 its every-256th sample, the indexed search for the key at any position i
returns the i-th position, so it is not the end sentinel when that position is one of an
entry. -/
theorem C1_find_indexed_returns_stored (m : BkIdxMap K V)
    (hs : m.m_index_level1.Pairwise (· < ·))
    (hlen : m.m_index_iter.length = m.m_index_level1.length)
    (h2 : SampledEvery m.m_index_level1 m.m_index_level2)
    (hsz : m.m_index_level1.length < 2147483648)
    (i : Nat) (hi : i < m.m_index_level1.length) :
    FindIndexed m m.m_index_level1[i] = some m.m_index_iter[i] ∧
      (m.m_index_iter[i] ≠ Iterator.pastEnd →
        FindIndexed m m.m_index_level1[i] ≠ some (End m)) := by
  have h := FindIndexed_of_getElem? m _ hs h2 hsz i (List.getElem?_eq_getElem hi)
  rw [List.getElem?_eq_getElem (by omega)] at h
  refine ⟨h, ?_⟩
  intro hne heq
  rw [h] at heq
  exact hne (Option.some.inj heq)

/-- Witness of C1 on `sampleIndex`: the key 512 sits at position 256, a sampled position that
opens the last, shorter section. -/
theorem C1_find_indexed_returns_stored_witness :
    FindIndexed sampleIndex 512 = some (Iterator.node 512) ∧
      FindIndexed sampleIndex 512 ≠ some (End sampleIndex) := by
  have hi : 256 < sampleIndex.m_index_level1.length := by rw [sampleIndex_length]; omega
  have h := C1_find_indexed_returns_stored sampleIndex sampleIndex_sorted sampleIndex_iter_length
    sampleIndex_sampled (by rw [sampleIndex_length]; omega) 256 hi
  obtain ⟨_, e1⟩ := List.getElem?_eq_some.mp (sampleIndex_level1_getElem? 256 (by omega))
  obtain ⟨_, e2⟩ := List.getElem?_eq_some.mp (sampleIndex_iter_getElem? 256 (by omega))
  rw [e1, e2] at h
  exact ⟨h.1, h.2 (by simp)⟩

/-- C2: the indexed path of Find rejects every absent key. For a strictly ascending level 1
(of a length an int can hold, the empty one included) with level 2 its every-256th sample,
the indexed search for a key that does not occur in level 1 returns the end sentinel. -/
theorem C2_find_indexed_rejects_absent (m : BkIdxMap K V)
    (hs : m.m_index_level1.Pairwise (· < ·))
    (h2 : SampledEvery m.m_index_level1 m.m_index_level2)
    (hsz : m.m_index_level1.length < 2147483648)
    (k : K) (hk : k ∉ m.m_index_level1) :
    FindIndexed m k = some (End m) :=
  FindIndexed_of_not_mem m k hs h2 hsz hk

/-- Witness of C2 on `sampleIndex` (a key between two stored keys, one below the smallest and
one above the largest) and on the empty index of a new map. -/
theorem C2_find_indexed_rejects_absent_witness :
    FindIndexed sampleIndex 513 = some (End sampleIndex) ∧
      FindIndexed sampleIndex (-1) = some (End sampleIndex) ∧
      FindIndexed sampleIndex 599 = some (End sampleIndex) ∧
      FindIndexed (fresh : BkIdxMap Int Int) 7 = some (End (fresh : BkIdxMap Int Int)) :=
  ⟨C2_find_indexed_rejects_absent sampleIndex sampleIndex_sorted sampleIndex_sampled
      (by rw [sampleIndex_length]; omega) 513 (sampleIndex_odd_absent 513 (by omega)),
    C2_find_indexed_rejects_absent sampleIndex sampleIndex_sorted sampleIndex_sampled
      (by rw [sampleIndex_length]; omega) (-1) (sampleIndex_odd_absent (-1) (by omega)),
    C2_find_indexed_rejects_absent sampleIndex sampleIndex_sorted sampleIndex_sampled
      (by rw [sampleIndex_length]; omega) 599 (sampleIndex_odd_absent 599 (by omega)),
    C2_find_indexed_rejects_absent (fresh : BkIdxMap Int Int) (by decide) (by decide)
      (by decide) 7 (by decide)⟩

/-- C3 (the code at the failing interleaving): a state is reachable in which the state is
Stable and no foreground call is in progress, the container holds the keys 3 and 5, but level 1
lists only the key 5; there the indexed Find(3) returns the end sentinel although the direct
search finds the entry. -/
theorem C3_stable_index_misses_key :
    ∃ s : Sys Int Int, Sys.Reachable s ∧
      s.map.m_state = State.Stable ∧ s.fg = [] ∧
      Impl.keys s.map.m_impl = [3, 5] ∧ s.map.m_index_level1 = [5] ∧
      Find s.map 3 = some Iterator.pastEnd ∧ Impl.find s.map.m_impl 3 = Iterator.node 3 :=
  ⟨staleBuildResult, ⟨staleBuildSchedule, by decide!⟩, by decide, by decide, by decide,
    by decide, by decide, by decide⟩

/-- C4 (the code at the failing interleaving): a state is reachable in which Lock has returned
for Add(2, 20), whose insert is the next foreground step, while the state is Indexing1 and the
index thread is about to run the statements of the Indexing1 case, which read the container;
both steps are enabled. -/
theorem C4_mutation_overlaps_build :
    ∃ s : Sys Int Int, Sys.Reachable s ∧
      s.fg = [Instr.insert 2 20, Instr.unlock] ∧
      s.map.m_state = State.Indexing1 ∧ s.bg = BgPc.inCase State.Indexing1 ∧
      (Sys.fgStep s).isSome = true ∧ (Sys.bgStep s).isSome = true :=
  ⟨lockDuringBuildResult, ⟨lockDuringBuildSchedule, by decide!⟩, by decide, by decide,
    by decide, by decide, by decide⟩

/-- C5: a completed build lists the whole container in order. Run alone from state Mutated on a
container of n ≥ 1 entries (n + 256 within the range of int), the index thread reaches Stable;
level 1 is then the list of the container's keys in ascending order, of length n, and the
position array has the same length, its i-th element referring to the entry whose key is
level1[i], whatever the index arrays held before. -/
theorem C5_build_lists_whole_container (m : BkIdxMap K V) (hst : m.m_state = State.Mutated)
    (hwf : Impl.WellFormed m.m_impl) (hn : 1 ≤ m.m_impl.length)
    (hsz : m.m_impl.length + 256 ≤ 2147483648) :
    ∃ m1, (∀ fuel, m.m_impl.length + (m.m_impl.length + 255) / 256 + 2 ≤ fuel →
        runUntilStable fuel m = some m1) ∧
      m1.m_state = State.Stable ∧ m1.m_impl = m.m_impl ∧
      m1.m_index_level1 = Impl.keys m1.m_impl ∧
      m1.m_index_level1.Pairwise (· < ·) ∧
      m1.m_index_level1.length = m.m_impl.length ∧
      m1.m_index_iter.length = m.m_impl.length ∧
      ∀ (i : Nat) (k : K), m1.m_index_level1[i]? = some k →
        m1.m_index_iter[i]? = some (Iterator.node k) ∧
          Impl.deref m1.m_impl (Iterator.node k) = some k := by
  obtain ⟨m1, -, hrun, -, himpl, hstable, hl1, hit, -⟩ := build_complete m hst hwf hn hsz
  refine ⟨m1, hrun, hstable, himpl, by rw [hl1, himpl], by rw [hl1]; exact hwf,
    by rw [hl1, Impl.keys_length], by rw [hit, List.length_map, Impl.keys_length], ?_⟩
  intro i k hk
  constructor
  · rw [hit, ← hl1, List.getElem?_map, hk]; rfl
  · rw [hl1, ← himpl] at hk
    exact Impl.deref_node m1.m_impl i k hk

/-- Witness of C5: the build on `staleSample`, 300 entries and leftover index arrays. -/
theorem C5_build_lists_whole_container_witness :
    ∃ m1, runUntilStable 304 staleSample = some m1 ∧
      m1.m_index_level1 = Impl.keys staleSample.m_impl ∧
      m1.m_index_iter.length = 300 := by
  obtain ⟨m1, hrun, -, himpl, hl1, -, -, hlen, -⟩ :=
    C5_build_lists_whole_container staleSample rfl staleSample_wellFormed
      (by rw [staleSample_length]; omega) (by rw [staleSample_length]; omega)
  exact ⟨m1, hrun 304 (by rw [staleSample_length]), by rw [hl1, himpl],
    by rw [hlen, staleSample_length]⟩

/-- C6: level 2 is the every-256th sample of level 1. Run alone from state Mutated on a
container of n ≥ 1 entries (n + 256 within the range of int), the index thread reaches Stable;
level 2 then has exactly ceil(n / 256) keys and its j-th key is the key at position 256 * j of
level 1, whatever level 2 held before. -/
theorem C6_level2_samples_level1 (m : BkIdxMap K V) (hst : m.m_state = State.Mutated)
    (hwf : Impl.WellFormed m.m_impl) (hn : 1 ≤ m.m_impl.length)
    (hsz : m.m_impl.length + 256 ≤ 2147483648) :
    ∃ m1, (∀ fuel, m.m_impl.length + (m.m_impl.length + 255) / 256 + 2 ≤ fuel →
        runUntilStable fuel m = some m1) ∧
      m1.m_state = State.Stable ∧
      m1.m_index_level2.length = (m.m_impl.length + 255) / 256 ∧
      ∀ j, j < (m.m_impl.length + 255) / 256 →
        ∃ k, m1.m_index_level2[j]? = some k ∧ m1.m_index_level1[256 * j]? = some k := by
  obtain ⟨m1, -, hrun, -, -, hstable, hl1, -, hlen, hsam⟩ := build_complete m hst hwf hn hsz
  rw [Impl.keys_length] at hlen
  refine ⟨m1, hrun, hstable, hlen, ?_⟩
  intro j hj
  have hj2 : j < m1.m_index_level2.length := by rw [hlen]; exact hj
  refine ⟨m1.m_index_level2[j], List.getElem?_eq_getElem hj2, ?_⟩
  rw [hl1, ← hsam j hj2]
  exact List.getElem?_eq_getElem hj2

/-- Witness of C6: the build on `staleSample` replaces the three leftover keys of level 2 by
the two sampled keys. -/
theorem C6_level2_samples_level1_witness :
    ∃ m1, runUntilStable 304 staleSample = some m1 ∧ m1.m_index_level2.length = 2 ∧
      ∃ k, m1.m_index_level2[1]? = some k ∧ m1.m_index_level1[256]? = some k := by
  obtain ⟨m1, hrun, -, hlen, hsam⟩ :=
    C6_level2_samples_level1 staleSample rfl staleSample_wellFormed
      (by rw [staleSample_length]; omega) (by rw [staleSample_length]; omega)
  rw [staleSample_length] at hlen hsam
  exact ⟨m1, hrun 304 (by rw [staleSample_length]), hlen, hsam 1 (by omega)⟩

/-- C7 (counterexample): adding the key 1 with value 20 to a map that holds `1 ↦ 10` leaves the
value 10 in place; the map holds no entry `1 ↦ 20` afterwards. -/
theorem C7_add_keeps_old_value :
    (Add singleEntry 1 20).map (fun m => m.m_impl) = some [(1, 10)] ∧
      (Add singleEntry 1 20).bind (fun m => Impl.lookup m.m_impl 1) ≠ some 20 := by
  decide

/-- C7 (amended): whenever Lock does not wait, Add(k, v) returns and the container then holds
an entry for k; its value is v when k was absent before the call and the value stored before
the call when k was already present. -/
theorem C7_add_inserts_or_keeps (m : BkIdxMap K V) (hwf : Impl.WellFormed m.m_impl)
    (hst : m.m_state ≠ State.Mutating) (k : K) (v : V) :
    ∃ m1, Add m k v = some m1 ∧
      Impl.lookup m1.m_impl k =
        some (match Impl.lookup m.m_impl k with
          | some old => old
          | none => v) := by
  refine ⟨Unlock { m with m_impl := Impl.insert m.m_impl k v }, ?_, ?_⟩
  · simp [BkIdxMap.Add, Lock_of_ne_Mutating m hst]
  · exact Impl.lookup_insert_self m.m_impl hwf k v

/-- Witness of the amended C7: a key that is new and a key that is present. -/
theorem C7_add_inserts_or_keeps_witness :
    (∃ m1, Add singleEntry 2 20 = some m1 ∧ Impl.lookup m1.m_impl 2 = some 20) ∧
      (∃ m1, Add singleEntry 1 20 = some m1 ∧ Impl.lookup m1.m_impl 1 = some 10) :=
  ⟨C7_add_inserts_or_keeps singleEntry (by decide) (by decide) 2 20,
    C7_add_inserts_or_keeps singleEntry (by decide) (by decide) 1 20⟩

/-- C8: every mutating operation marks the index dirty. From every state other than Mutating
(so that Lock returns at once), Add, Remove and Clear return with the state Mutated, so
IsFastIndexAvailable is false before any step of the index thread. -/
theorem C8_mutators_mark_dirty (m : BkIdxMap K V) (hst : m.m_state ≠ State.Mutating)
    (k : K) (v : V) :
    (∃ m1, Add m k v = some m1 ∧ m1.m_state = State.Mutated ∧
        IsFastIndexAvailable m1 = false) ∧
      (∃ m1, Remove m k = some m1 ∧ m1.m_state = State.Mutated ∧
        IsFastIndexAvailable m1 = false) ∧
      (∃ m1, Clear m = some m1 ∧ m1.m_state = State.Mutated ∧
        IsFastIndexAvailable m1 = false) := by
  refine ⟨⟨Unlock { m with m_impl := Impl.insert m.m_impl k v }, ?_, rfl, rfl⟩,
    ⟨Unlock { m with m_impl := Impl.erase m.m_impl k }, ?_, rfl, rfl⟩,
    ⟨Unlock { m with m_impl := Impl.clear m.m_impl }, ?_, rfl, rfl⟩⟩
  · simp [BkIdxMap.Add, Lock_of_ne_Mutating m hst]
  · simp [BkIdxMap.Remove, Lock_of_ne_Mutating m hst]
  · simp [BkIdxMap.Clear, Lock_of_ne_Mutating m hst]

/-- Witness of C8: an insert into a map whose state is Stable. -/
theorem C8_mutators_mark_dirty_witness :
    IsFastIndexAvailable sampleIndex = true ∧
      ∃ m1, Add sampleIndex 7 8 = some m1 ∧ m1.m_state = State.Mutated ∧
        IsFastIndexAvailable m1 = false :=
  ⟨rfl, (C8_mutators_mark_dirty sampleIndex (by decide) 7 8).1⟩

/-- C9: eventual indexing. After N distinct keys have been added to a new map (N + 256 within
the range of int) and the index thread then runs alone: for N = 0 the state is Stable as it
is; for N ≥ 1 the state is Mutated after the last Add, it is Stable after exactly
1 + N + ceil(N / 256) + 1 loop iterations and after no fewer, so IsFastIndexAvailable becomes
true. -/
theorem C9_eventual_indexing (kvs : List (K × V)) (hnd : (kvs.map Prod.fst).Nodup)
    (hsz : kvs.length + 256 ≤ 2147483648) :
    ∃ m, AddAll kvs (fresh : BkIdxMap K V) = some m ∧
      (kvs.length = 0 → IsFastIndexAvailable m = true) ∧
      (1 ≤ kvs.length →
        m.m_state = State.Mutated ∧
        (∃ m1, loopIterations (1 + kvs.length + (kvs.length + 255) / 256 + 1) m = some m1 ∧
          IsFastIndexAvailable m1 = true) ∧
        ∀ t, t < 1 + kvs.length + (kvs.length + 255) / 256 + 1 →
          ∃ mt, loopIterations t m = some mt ∧ IsFastIndexAvailable mt = false) := by
  obtain ⟨m, hadd, hwf, hlen, hs0, hs1⟩ :=
    AddAll_spec kvs (fresh : BkIdxMap K V) (by simp [fresh])
      (by simp [fresh, Impl.WellFormed, Impl.keys]) hnd (by simp [fresh, Impl.keys])
  have hlen' : m.m_impl.length = kvs.length := by
    rw [hlen]; simp [fresh]
  refine ⟨m, hadd, ?_, ?_⟩
  · intro h0
    have : kvs = [] := List.length_eq_zero.mp h0
    simp [IsFastIndexAvailable, hs0 this, fresh]
  · intro h1
    have hne : kvs ≠ [] := by
      intro h; rw [h] at h1; simp at h1
    have hst := hs1 hne
    obtain ⟨m1, hrun, -, hbefore, -, hstable, -⟩ :=
      build_complete m hst hwf (by omega) (by omega)
    rw [hlen'] at hrun hbefore
    have e : 1 + kvs.length + (kvs.length + 255) / 256 + 1 =
        kvs.length + (kvs.length + 255) / 256 + 2 := by omega
    rw [e]
    refine ⟨hst, ⟨m1, hrun, by simp [IsFastIndexAvailable, hstable]⟩, ?_⟩
    intro t ht
    obtain ⟨mt, hmt, hns⟩ := hbefore t ht
    exact ⟨mt, hmt, by simp [IsFastIndexAvailable, hns]⟩

/-- Witness of C9: no key, and the three keys of a small test loop. -/
theorem C9_eventual_indexing_witness :
    (∃ m, AddAll [] (fresh : BkIdxMap Int Int) = some m ∧ IsFastIndexAvailable m = true) ∧
      ∃ m, AddAll [(0, 1), (1, 2), (2, 3)] (fresh : BkIdxMap Int Int) = some m ∧
        ∃ m1, loopIterations 6 m = some m1 ∧ IsFastIndexAvailable m1 = true := by
  obtain ⟨m0, h0, hfast, -⟩ := C9_eventual_indexing ([] : List (Int × Int)) (by decide)
    (by decide)
  obtain ⟨m, hadd, -, h⟩ := C9_eventual_indexing [((0 : Int), (1 : Int)), (1, 2), (2, 3)]
    (by decide) (by decide)
  exact ⟨⟨m0, h0, hfast rfl⟩, m, hadd, (h (by decide)).2.1⟩

/-- C10: disabling indexing is permanent. Once DisableIndexing has returned (the state is
QuitDone, the index thread has finished, the foreground is between calls), then along every
sequence of steps in which the foreground calls only Add, Remove, Clear, Find and
PerformLocked the state is never Stable and Find(k) is the direct container search, which
returns the node of k when k is stored and the end sentinel otherwise; and every such
sequence of calls runs to its end. -/
theorem C10_disable_indexing_is_permanent (s : Sys K V) (hbg : s.bg = BgPc.finished)
    (hst : s.map.m_state = State.QuitDone) (hfg : s.fg = []) (hpc : s.lockPc = LockPc.enter) :
    (∀ (acts : List (Action K V)) (s1 : Sys K V),
        (∀ a ∈ acts, Action.isPlain a = true) → Sys.run s acts = some s1 →
        s1.map.m_state ≠ State.Stable ∧
          ∀ k, Find s1.map k = some (Impl.find s1.map.m_impl k) ∧
            (k ∈ Impl.keys s1.map.m_impl → Impl.find s1.map.m_impl k = Iterator.node k) ∧
            (k ∉ Impl.keys s1.map.m_impl → Impl.find s1.map.m_impl k = End s1.map)) ∧
      (∀ ops : List (Op K V), Op.allPlain ops = true →
        ∃ s1, Sys.run s (Op.schedule s.joinable ops) = some s1 ∧ s1.fg = []) := by
  have hq : Quiesced s := ⟨hbg, Or.inl hst, hpc, by rw [hfg]; intro i hi; cases hi⟩
  constructor
  · intro acts s1 hacts hrun
    have hq1 := hq.run acts hacts hrun
    have hns : s1.map.m_state ≠ State.Stable := by
      rcases hq1.2.1 with e | e <;> rw [e] <;> decide
    refine ⟨hns, fun k => ⟨Find_of_not_Stable s1.map hns k, ?_, ?_⟩⟩
    · intro hk; simp [Impl.find, hk]
    · intro hk; simp [Impl.find, hk, End]
  · intro ops hops
    obtain ⟨s1, hrun, hfg1, -⟩ := Quiesced.run_schedule ops hops hq hfg
    exact ⟨s1, hrun, hfg1⟩

/-- Witness of C10: after DisableIndexing, a batch that inserts the key 2 and looks it up. -/
theorem C10_disable_indexing_is_permanent_witness :
    ∃ s1, Sys.run afterDisable
        (Op.schedule false [Op.PerformLocked [Op.Add 2 20, Op.Find 2], Op.Remove 1]) = some s1 ∧
      s1.map.m_state ≠ State.Stable ∧
      Find s1.map 2 = some (Impl.find s1.map.m_impl 2) := by
  have h := C10_disable_indexing_is_permanent afterDisable rfl rfl rfl rfl
  obtain ⟨s1, hrun, -⟩ :=
    h.2 [Op.PerformLocked [Op.Add 2 20, Op.Find 2], Op.Remove 1] (by decide)
  have hsafe := h.1 _ s1 (by decide) hrun
  exact ⟨s1, hrun, hsafe.1, (hsafe.2 2).1⟩

/-- C11 (counterexample): the empty sequence of calls. Made one by one, no call runs and the
state of a new map stays Stable; wrapped in PerformLocked, the Unlock of the batch stores
Mutated. -/
theorem C11_empty_sequence_keeps_state :
    (callAll ([] : List (Mutator Int Int)) fresh).map (fun m => m.m_state)
        = some State.Stable ∧
      (PerformLocked (fresh : BkIdxMap Int Int) (callAll [])).map (fun m => m.m_state)
        = some State.Mutated := by
  decide

/-- C11 (amended): batched equivalence. Whenever Lock does not wait, a sequence of Add, Remove
and Clear calls returns both when the calls are made one by one and when they are made inside
PerformLocked, and the container is the same in both cases. The state is Mutated after the
batch; after the calls made one by one it is Mutated when the sequence is not empty, and
unchanged when it is empty. -/
theorem C11_batched_equivalence (m : BkIdxMap K V) (hst : m.m_state ≠ State.Mutating)
    (ops : List (Mutator K V)) :
    ∃ mi mb, callAll ops m = some mi ∧ PerformLocked m (callAll ops) = some mb ∧
      mb.m_impl = mi.m_impl ∧ mb.m_state = State.Mutated ∧
      (ops ≠ [] → mi.m_state = State.Mutated) ∧ (ops = [] → mi.m_state = m.m_state) := by
  obtain ⟨mi, hrun, h0, h1⟩ := callAll_spec ops m hst
  refine ⟨mi, Unlock mi, hrun, ?_, rfl, rfl, h1, fun h => (by rw [h0 h])⟩
  simp [PerformLocked, Lock_of_ne_Mutating m hst, hrun]

/-- Witness of the amended C11: an insert, a removal and another insert on `singleEntry`. -/
theorem C11_batched_equivalence_witness :
    ∃ mi mb,
      callAll [Mutator.Add 2 20, Mutator.Remove 1, Mutator.Add 3 30] singleEntry = some mi ∧
      PerformLocked singleEntry (callAll [Mutator.Add 2 20, Mutator.Remove 1, Mutator.Add 3 30])
        = some mb ∧
      mb.m_impl = mi.m_impl ∧ mb.m_state = State.Mutated ∧ mi.m_state = State.Mutated := by
  obtain ⟨mi, mb, h1, h2, h3, h4, h5, -⟩ :=
    C11_batched_equivalence singleEntry (by decide)
      [Mutator.Add 2 20, Mutator.Remove 1, Mutator.Add 3 30]
  exact ⟨mi, mb, h1, h2, h3, h4, h5 (by decide)⟩

/-- C12: Remove erases exactly the matching entry. Whenever Lock does not wait, Remove(k)
returns with the state Mutated; the container then has no entry for k, an entry with another
key is in the container after the call exactly when it was before, with the value it had, and
the container is unchanged when k was absent. -/
theorem C12_remove_erases_matching (m : BkIdxMap K V) (hst : m.m_state ≠ State.Mutating)
    (k : K) :
    ∃ m1, Remove m k = some m1 ∧ m1.m_state = State.Mutated ∧
      k ∉ Impl.keys m1.m_impl ∧ Impl.lookup m1.m_impl k = none ∧
      (∀ e : K × V, e.1 ≠ k → (e ∈ m1.m_impl ↔ e ∈ m.m_impl)) ∧
      (∀ k1, k1 ≠ k → Impl.lookup m1.m_impl k1 = Impl.lookup m.m_impl k1) ∧
      (k ∉ Impl.keys m.m_impl → m1.m_impl = m.m_impl) := by
  refine ⟨Unlock { m with m_impl := Impl.erase m.m_impl k }, ?_, rfl, ?_, ?_, ?_, ?_, ?_⟩
  · simp [BkIdxMap.Remove, Lock_of_ne_Mutating m hst]
  · show k ∉ Impl.keys (Impl.erase m.m_impl k)
    intro hmem
    obtain ⟨e, he, hek⟩ := List.mem_map.mp hmem
    exact ((Impl.mem_erase m.m_impl k e).mp he).2 hek
  · exact Impl.lookup_erase_self m.m_impl k
  · intro e hne
    show e ∈ Impl.erase m.m_impl k ↔ e ∈ m.m_impl
    rw [Impl.mem_erase]
    exact ⟨fun h => h.1, fun h => ⟨h, hne⟩⟩
  · intro k1 hne
    exact Impl.lookup_erase_other m.m_impl k k1 hne
  · intro hk
    exact Impl.erase_of_not_mem m.m_impl k hk

/-- Witness of C12 on `singleEntry`: the key that is stored and a key that is absent. -/
theorem C12_remove_erases_matching_witness :
    (∃ m1, Remove singleEntry 1 = some m1 ∧ m1.m_state = State.Mutated ∧
        Impl.lookup m1.m_impl 1 = none) ∧
      (∃ m1, Remove singleEntry 7 = some m1 ∧ m1.m_state = State.Mutated ∧
        m1.m_impl = singleEntry.m_impl) := by
  obtain ⟨m1, h1, h2, -, h4, -⟩ := C12_remove_erases_matching singleEntry (by decide) 1
  obtain ⟨m2, g1, g2, -, -, -, -, g7⟩ := C12_remove_erases_matching singleEntry (by decide) 7
  exact ⟨⟨m1, h1, h2, h4⟩, m2, g1, g2, g7 (by decide)⟩

/-- C13 (the code at the failing input): PerformLocked of Add(1, 10) and Add(2, 20) on a new
map runs Unlock three times. A state is reachable in which Add(2, 20) and the Unlock of the
batch are still to come and the state is Mutated, and one in which, with the batch at that
same point, the index thread has run the Mutated case and an Indexing1 iteration: the state
is Indexing1 and level 1 holds the key 1. -/
theorem C13_batch_releases_before_its_end :
    (Op.code true (Op.PerformLocked [Op.Add (1 : Int) (10 : Int), Op.Add 2 20])).count
        Instr.unlock = 3 ∧
      (∃ s : Sys Int Int, Sys.Reachable s ∧
        s.fg = [Instr.lock, Instr.insert 2 20, Instr.unlock, Instr.unlock] ∧
        s.map.m_state = State.Mutated) ∧
      ∃ s : Sys Int Int, Sys.Reachable s ∧
        s.fg = [Instr.lock, Instr.insert 2 20, Instr.unlock, Instr.unlock] ∧
        s.map.m_state = State.Indexing1 ∧ s.map.m_index_level1 = [1] :=
  ⟨by decide, ⟨batchResult, ⟨batchSchedule, by decide!⟩, by decide, by decide⟩,
    batchBuildResult, ⟨batchBuildSchedule, by decide!⟩, by decide, by decide, by decide⟩

/-- C14 (the code at the failing input): a state is reachable in which Quit is stored, the
foreground waits in join, and the index thread, which has read Indexing1 on the empty
container, is about to dereference `progress`, equal to `end()`. Its step is undefined, so no
step of the index thread sets QuitDone, and the join does not return. -/
theorem C14_quit_not_acknowledged :
    ∃ s : Sys Int Int, Sys.Reachable s ∧
      s.map.m_state = State.Quit ∧ s.bg = BgPc.inCase State.Indexing1 ∧
      s.fg = [Instr.join] ∧
      Impl.deref s.map.m_impl s.map.progress = none ∧
      Sys.bgStep s = none ∧ Sys.fgStep s = some s :=
  ⟨quitDuringEmptyBuildResult, ⟨quitDuringEmptyBuildSchedule, by decide!⟩, by decide,
    by decide, by decide, by decide, by decide, by decide!⟩

/-- C15: the build transitions never clobber a state forced by the foreground. Let the index
thread read the state x, one of Mutated, Indexing1, Indexing2, with successor y, and let the
foreground take any steps of its own before the statements of the case and again before the
write. The statements of the case write neither the state nor the container; they end at the
compare-exchange from x to y exactly when the case is Mutated, or Indexing1 with the increment
reaching the end, or Indexing2 with the sample position at or past the end of level 1, and
otherwise go back to the head of the loop, where the next step only reads the state. At the
compare-exchange, if the state is no longer x the step leaves the whole map as it is, so the
state is still the one the foreground stored; if the state is x the step sets it to y and
changes nothing else. -/
theorem C15_build_transitions_respect_foreground (s sa : Sys K V) (x y : State)
    (acts1 : List (Action K V))
    (hxy : (x = State.Mutated ∧ y = State.Indexing1) ∨
      (x = State.Indexing1 ∧ y = State.Indexing2) ∨ (x = State.Indexing2 ∧ y = State.Stable))
    (hsw : s.bg = BgPc.atSwitch) (hst : s.map.m_state = x)
    (hfg1 : ∀ a ∈ acts1, a ≠ Action.bg)
    (hrun1 : Sys.run s (Action.bg :: acts1) = some sa) :
    sa.bg = BgPc.inCase x ∧
      (x = State.Mutated → ∃ sb, Sys.bgStep sa = some sb) ∧
      ∀ sb, Sys.bgStep sa = some sb →
        sb.map.m_state = sa.map.m_state ∧ sb.map.m_impl = sa.map.m_impl ∧
          (sb.bg = BgPc.atCas x y ↔
            (x = State.Mutated ∨
              (x = State.Indexing1 ∧
                Impl.next sa.map.m_impl sa.map.progress = some Iterator.pastEnd) ∨
              (x = State.Indexing2 ∧
                toSizeT sa.map.lvl2_index ≥ sa.map.m_index_level1.length))) ∧
          (sb.bg ≠ BgPc.atCas x y → sb.bg = BgPc.atSwitch) ∧
          ∀ (acts2 : List (Action K V)) (sc : Sys K V),
            (∀ a ∈ acts2, a ≠ Action.bg) → Sys.run sb acts2 = some sc →
              sc.bg = sb.bg ∧
                ∃ sd, Sys.bgStep sc = some sd ∧
                  (sb.bg = BgPc.atSwitch → sd.map = sc.map ∧ sd.bg = BgPc.inCase sc.map.m_state) ∧
                  (sb.bg = BgPc.atCas x y →
                    sd.bg = BgPc.atSwitch ∧
                      (sc.map.m_state ≠ x → sd.map = sc.map ∧ sd.map.m_state = sc.map.m_state) ∧
                      (sc.map.m_state = x →
                        sd.map = { sc.map with m_state := y } ∧ sd.map.m_state = y)) := by
  -- the read of the state
  simp only [Sys.run, Sys.step] at hrun1
  have hread : Sys.bgStep s = some { s with bg := BgPc.inCase x } := by
    simp [Sys.bgStep, hsw, hst]
  rw [hread] at hrun1
  simp only [Option.some_bind] at hrun1
  have hsa : sa.bg = BgPc.inCase x := foreground_run_keeps_bg acts1 _ sa hfg1 hrun1
  refine ⟨hsa, ?_, ?_⟩
  · rintro rfl
    simp [Sys.bgStep, hsa, caseBody]
  · intro sb hsb
    unfold Sys.bgStep at hsb
    rw [hsa] at hsb
    dsimp only at hsb
    cases hc : caseBody x sa.map with
    | none => rw [hc] at hsb; simp at hsb
    | some r =>
      obtain ⟨m1, nxt⟩ := r
      rw [hc] at hsb
      simp only [Option.map_some', Option.some.injEq] at hsb
      obtain ⟨h1, h2, h3, h4⟩ := caseBody_build x y sa.map m1 nxt hxy hc
      have hmap : sb.map = m1 := by
        subst hsb
        cases nxt <;> rfl
      have hbgcas : sb.bg = BgPc.atCas x y ↔ nxt = BgNext.cas x y := by
        subst hsb
        cases nxt <;> simp
      have hbgloop : nxt = BgNext.loop → sb.bg = BgPc.atSwitch := by
        rintro rfl
        subst hsb
        rfl
      refine ⟨by rw [hmap]; exact h1, by rw [hmap]; exact h2, hbgcas.trans h3,
        fun hne => hbgloop (h4 (fun hn => hne (hbgcas.mpr hn))), ?_⟩
      intro acts2 sc hfg2 hrun2
      have hsc : sc.bg = sb.bg := foreground_run_keeps_bg acts2 sb sc hfg2 hrun2
      refine ⟨hsc, ?_⟩
      by_cases hcas : sb.bg = BgPc.atCas x y
      · refine ⟨{ sc with map := compare_exchange_strong sc.map x y, bg := BgPc.atSwitch }, ?_,
          ?_, ?_⟩
        · simp [Sys.bgStep, hsc, hcas]
        · intro hsw2
          rw [hcas] at hsw2
          cases hsw2
        · intro _
          refine ⟨rfl, ?_, ?_⟩
          · intro hne
            have : compare_exchange_strong sc.map x y = sc.map := by
              simp [compare_exchange_strong, hne]
            exact ⟨this, by rw [this]⟩
          · intro heq
            have : compare_exchange_strong sc.map x y = { sc.map with m_state := y } := by
              simp [compare_exchange_strong, heq]
            exact ⟨this, by rw [this]⟩
      · have hloop : sb.bg = BgPc.atSwitch :=
          hbgloop (h4 (fun hn => hcas (hbgcas.mpr hn)))
        refine ⟨{ sc with bg := BgPc.inCase sc.map.m_state }, ?_, fun _ => ⟨rfl, rfl⟩,
          fun h => absurd h hcas⟩
        simp [Sys.bgStep, hsc, hloop]

/-- Witness of C15 on `addedOne`, the system after Add(5, 50) on a new map: when
DisableIndexing stores Quit between the statements of the Mutated case and the
compare-exchange, the state is Quit after it; when the foreground does nothing, the state is
Indexing1 after it. -/
theorem C15_build_transitions_respect_foreground_witness :
    Sys.Reachable addedOne ∧
      (∃ sd, Sys.run addedOne [Action.bg, Action.bg, Action.call Op.DisableIndexing, Action.fg,
          Action.bg] = some sd ∧ sd.map.m_state = State.Quit ∧ sd.bg = BgPc.atSwitch) ∧
      ∃ sd, Sys.run addedOne [Action.bg, Action.bg, Action.bg] = some sd ∧
        sd.map.m_state = State.Indexing1 ∧ sd.bg = BgPc.atSwitch := by
  obtain ⟨-, -, hall⟩ :=
    C15_build_transitions_respect_foreground addedOne addedOneRead State.Mutated State.Indexing1 [] (Or.inl ⟨rfl, rfl⟩) rfl rfl
      (by simp) (by decide)
  obtain ⟨-, -, hiff, -, hacts⟩ := hall addedOneCleared (by decide)
  have hcas := hiff.mpr (Or.inl rfl)
  refine ⟨⟨[Action.call (Op.Add 5 50), Action.fg, Action.fg, Action.fg], by decide⟩, ?_, ?_⟩
  · obtain ⟨-, sd, hstep, -, hd⟩ :=
      hacts [Action.call Op.DisableIndexing, Action.fg] quitBeforeCas (by simp) (by decide)
    obtain ⟨hbg, hne, -⟩ := hd hcas
    refine ⟨sd, ?_, by rw [(hne (by decide)).2]; rfl, hbg⟩
    have hpre : Sys.run addedOne [Action.bg, Action.bg, Action.call Op.DisableIndexing,
        Action.fg] = some quitBeforeCas := by decide
    have := Sys.run_append addedOne [Action.bg, Action.bg, Action.call Op.DisableIndexing,
      Action.fg] [Action.bg]
    rw [hpre] at this
    simpa [Sys.run, Sys.step, hstep] using this
  · obtain ⟨-, sd, hstep, -, hd⟩ := hacts [] addedOneCleared (by simp) (by decide)
    obtain ⟨hbg, -, heq⟩ := hd hcas
    refine ⟨sd, ?_, (heq (by decide)).2, hbg⟩
    have hpre : Sys.run addedOne [Action.bg, Action.bg] = some addedOneCleared := by decide
    have := Sys.run_append addedOne [Action.bg, Action.bg] [Action.bg]
    rw [hpre] at this
    simpa [Sys.run, Sys.step, hstep] using this

/-- C16 (counterexample): on `sampleIndex` the key 512 is the sampled key `level2[1]`, the
greatest sampled key not above 512, yet the section Find computes for it starts at 0, not at
256; the fine search returns the end 256 of that section, and the match is reported there. -/
theorem C16_sampled_key_found_at_section_end :
    sampleIndex.m_index_level2[1]? = some 512 ∧
      FindSection sampleIndex 512 = some (0, 256, 256) ∧
      FindIndexed sampleIndex 512 = some (Iterator.node 512) := by
  refine ⟨rfl, by decide!, by decide!⟩

/-- C16 (amended): section selection in the indexed Find. For a consistent index (level 1
strictly ascending, of a length an int can hold, level 2 its every-256th sample) and every
key k, the section start is s = 256 * (j - 1), where j is the number of sampled keys less
than k: `level2[j - 1]` is the greatest sampled key strictly less than k, and s = 0 when no
sampled key is less than k. The fine search is the lower bound of k in `[s, e)` with
e = min(s + 256, len); a match is reported only at the position f it returns, s ≤ f ≤ e, and
it is reported at the end e only when k is the sampled key `level2[j]`. -/
theorem C16_section_selection (m : BkIdxMap K V)
    (hs : m.m_index_level1.Pairwise (· < ·))
    (h2 : SampledEvery m.m_index_level1 m.m_index_level2)
    (hsz : m.m_index_level1.length < 2147483648) (k : K) :
    ∃ j s e f, FindSection m k = some (s, e, f) ∧ s = 256 * (j - 1) ∧
      (∀ i x, i < j → m.m_index_level2[i]? = some x → x < k) ∧
      (∀ i x, j ≤ i → m.m_index_level2[i]? = some x → k ≤ x) ∧
      e = min (s + 256) m.m_index_level1.length ∧ s ≤ f ∧ f ≤ e ∧
      (∀ i x, s ≤ i → i < f → m.m_index_level1[i]? = some x → x < k) ∧
      (∀ i x, f ≤ i → i < e → m.m_index_level1[i]? = some x → k ≤ x) ∧
      (FindIndexed m k ≠ some (End m) →
        m.m_index_level1[f]? = some k ∧ FindIndexed m k = m.m_index_iter[f]?) ∧
      (FindIndexed m k ≠ some (End m) → f = e → m.m_index_level2[j]? = some k) := by
  obtain ⟨j, f, hjL, -, hlo2, hhi2, hsec, hsn, -, hsf, hfe, hlo1, hhi1⟩ :=
    FindSection_char m k hs h2 hsz
  have hfind := FindIndexed_of_FindSection m k _ _ f hsec
  have hmatch : FindIndexed m k ≠ some (End m) →
      m.m_index_level1[f]? = some k ∧ FindIndexed m k = m.m_index_iter[f]? := by
    intro hne
    rw [hfind] at hne ⊢
    by_cases hfn : f = m.m_index_level1.length
    · rw [if_pos hfn] at hne; exact absurd rfl hne
    · rw [if_neg hfn] at hne ⊢
      have hlt : f < m.m_index_level1.length := by omega
      rw [List.getElem?_eq_getElem hlt] at hne ⊢
      by_cases hx : m.m_index_level1[f] = k
      · simp [hx]
      · simp [hx] at hne
  refine ⟨j, _, _, f, hsec, rfl, hlo2, hhi2, by omega, hsf, hfe, hlo1, hhi1, hmatch, ?_⟩
  intro hne hfe2
  obtain ⟨hk, -⟩ := hmatch hne
  have hfn : f < m.m_index_level1.length := (List.getElem?_eq_some.mp hk).1
  -- the section is a full one and the match sits on the next sampled position
  have hf : f = 256 * (j - 1) + 256 := by omega
  by_cases hj0 : j = 0
  · -- no sampled key is below k, yet the key at position 0 is below the one at position 256
    subst hj0
    have h0 : m.m_index_level2[0]? = m.m_index_level1[256 * 0]? :=
      h2.2 0 (by rw [h2.1]; omega)
    have hlen2 : 0 < m.m_index_level2.length := by rw [h2.1]; omega
    rw [List.getElem?_eq_getElem hlen2] at h0
    have hle : k ≤ m.m_index_level2[0] :=
      hhi2 0 _ (le_refl _) (List.getElem?_eq_getElem hlen2)
    have hlt : m.m_index_level2[0] < k :=
      sorted_getElem?_lt hs (by omega) h0.symm hk
    exact absurd hlt (not_lt.mpr hle)
  · have hfj : f = 256 * j := by omega
    rw [h2.2 j (by rw [h2.1]; omega), ← hfj]
    exact hk

/-- Witness of the amended C16 on `sampleIndex`, for the absent key 513. -/
theorem C16_section_selection_witness :
    ∃ j s e f, FindSection sampleIndex 513 = some (s, e, f) ∧ s = 256 * (j - 1) ∧
      e = min (s + 256) sampleIndex.m_index_level1.length ∧ s ≤ f ∧ f ≤ e := by
  obtain ⟨j, s, e, f, h1, h2, -, -, h3, h4, h5, -⟩ :=
    C16_section_selection sampleIndex sampleIndex_sorted sampleIndex_sampled
      (by rw [sampleIndex_length]; omega) 513
  exact ⟨j, s, e, f, h1, h2, h3, h4, h5⟩

/-- C17 (counterexample): the loop iteration that handles Mutated on `staleSample` empties
level 1 and the position array and moves the state to Indexing1, but level 2 still holds the
three keys it held before. -/
theorem C17_level2_survives_build_start :
    (loopIteration staleSample).map
        (fun m => (m.m_state, m.m_index_level1, m.m_index_iter, m.m_index_level2))
      = some (State.Indexing1, [], [], [9, 9, 9]) := by
  rw [loopIteration_Mutated staleSample rfl]
  rfl

/-- C17 (amended): for every prior content of the index arrays, the statements of the Mutated
case empty level 1 (keys and positions), leave level 2 as it was and ask for the
compare-exchange from Mutated to Indexing1; level 2 is emptied, and `lvl2_index` reset, by the
Indexing1 iteration that reaches the end of the container and asks for the compare-exchange to
Indexing2. -/
theorem C17_build_start_clears_level1 (m : BkIdxMap K V) :
    (∃ m1, caseBody State.Mutated m =
          some (m1, BgNext.cas State.Mutated State.Indexing1) ∧
        m1.m_index_level1 = [] ∧ m1.m_index_iter = [] ∧
        m1.m_index_level2 = m.m_index_level2) ∧
      ∀ (m1 : BkIdxMap K V) (e d : State),
        caseBody State.Indexing1 m = some (m1, BgNext.cas e d) →
          m1.m_index_level2 = [] ∧ m1.lvl2_index = 0 := by
  constructor
  · exact ⟨_, rfl, rfl, rfl, rfl⟩
  · intro m1 e d h
    simp only [caseBody] at h
    cases hd : Impl.deref m.m_impl m.progress with
    | none => rw [hd] at h; simp at h
    | some key =>
      cases hn : Impl.next m.m_impl m.progress with
      | none => rw [hd, hn] at h; simp at h
      | some p1 =>
        rw [hd, hn] at h
        simp only [Option.some_bind] at h
        split at h
        · simp only [Option.some.injEq, Prod.mk.injEq] at h
          obtain ⟨rfl, -⟩ := h
          exact ⟨rfl, rfl⟩
        · simp at h

/-- Witness of the amended C17: the Mutated case on `staleSample` and the last Indexing1
iteration on `lastIndexing1`. -/
theorem C17_build_start_clears_level1_witness :
    (∃ m1, caseBody State.Mutated staleSample =
          some (m1, BgNext.cas State.Mutated State.Indexing1) ∧
        m1.m_index_level1 = [] ∧ m1.m_index_iter = [] ∧ m1.m_index_level2 = [9, 9, 9]) ∧
      ∃ m1, caseBody State.Indexing1 lastIndexing1 =
          some (m1, BgNext.cas State.Indexing1 State.Indexing2) ∧
        m1.m_index_level2 = [] := by
  have h1 := (C17_build_start_clears_level1 staleSample).1
  have hc : caseBody State.Indexing1 lastIndexing1 =
      some ({ lastIndexing1 with m_index_level1 := [1], m_index_iter := [Iterator.node 1],
                                 progress := Iterator.pastEnd, lvl2_index := 0,
                                 m_index_level2 := [] },
        BgNext.cas State.Indexing1 State.Indexing2) := by decide
  have h2 := (C17_build_start_clears_level1 lastIndexing1).2 _ _ _ hc
  exact ⟨h1, _, hc, h2.1⟩

/-- C18: the states Mutating and MutateBegin are unreachable. In every state reachable from
the new map by an interleaving of foreground calls and steps of the index thread, the state
is neither Mutating nor MutateBegin, and a pending Lock returns in one step of the foreground
that changes nothing but the place of the foreground in its call. -/
theorem C18_handshake_states_unreachable (s : Sys K V) (h : Sys.Reachable s) :
    s.map.m_state ≠ State.Mutating ∧ s.map.m_state ≠ State.MutateBegin ∧
      ∀ rest, s.fg = Instr.lock :: rest → Sys.fgStep s = some { s with fg := rest } := by
  obtain ⟨hm, hb, hpc, -, -⟩ := NoHandshake.of_reachable h
  refine ⟨hm, hb, ?_⟩
  intro rest hfg
  unfold Sys.fgStep
  rw [hfg]
  simp only [hpc, hm, if_false]

/-- Witness of C18 on `lockPending`, the state in which Add(1, 10) has just been called. -/
theorem C18_handshake_states_unreachable_witness :
    lockPending.map.m_state ≠ State.Mutating ∧
      Sys.fgStep lockPending =
        some { lockPending with fg := [Instr.insert 1 10, Instr.unlock] } := by
  have h := C18_handshake_states_unreachable lockPending
    ⟨[Action.call (Op.Add 1 10)], by decide!⟩
  exact ⟨h.1, h.2.2 _ rfl⟩

/-- C19 (the code at the failing input): Clear on a new map, and Remove of the only entry,
leave the empty container in state Mutated. The Mutated iteration then sets `progress` to
`begin()`, which is `end()`, and moves the state to Indexing1; the Indexing1 iteration
dereferences `progress`, which refers to no entry: the second loop iteration is undefined and
the build does not reach Stable. -/
theorem C19_build_on_empty_container_reads_end :
    Clear (fresh : BkIdxMap Int Int) = some clearedMap ∧
      Remove singleEntry 1 = some clearedMap ∧
      loopIteration clearedMap =
        some { clearedMap with m_state := State.Indexing1 } ∧
      Impl.deref clearedMap.m_impl clearedMap.progress = none ∧
      loopIterations 2 clearedMap = none ∧
      ∀ fuel, runUntilStable fuel clearedMap = none := by
  refine ⟨by decide, by decide, by decide, by decide, by decide, ?_⟩
  intro fuel
  cases fuel with
  | zero => decide
  | succ f =>
    cases f with
    | zero => decide
    | succ g =>
      have h1 : loopIteration clearedMap =
          some { clearedMap with m_state := State.Indexing1 } := by
        decide
      have h2 : loopIteration { clearedMap with m_state := State.Indexing1 } = none := by
        decide
      have hs : clearedMap.m_state ≠ State.Stable := by decide
      simp only [runUntilStable, hs, if_false, h1, Option.some_bind]
      have hs2 : ¬ (State.Indexing1 = State.Stable) := by decide
      simp only [hs2, if_false, h2, Option.none_bind]

/-- C20: the indexed Find stays in bounds. For a consistent index (level 1 strictly ascending
of length n, n within the range of int, a position array of length n, level 2 the
every-256th sample of level 1) and every key k: the section start s = 256 * max(0, j - 1) is
at most n, the size_t difference n - s does not wrap, the section end e = s + min(n - s, 256)
is at most n, and the position f found by the fine search lies in `[s, e]`. When f = n the
end sentinel is returned and nothing is read; when f < n the key at f and, on a match, the
position array at f are read, both in range. -/
theorem C20_find_indexed_stays_in_bounds (m : BkIdxMap K V)
    (hs : m.m_index_level1.Pairwise (· < ·))
    (hlen : m.m_index_iter.length = m.m_index_level1.length)
    (h2 : SampledEvery m.m_index_level1 m.m_index_level2)
    (hsz : m.m_index_level1.length < 2147483648) (k : K) :
    ∃ s e f, FindSection m k = some (s, e, f) ∧
      s = 256 * (lower_bound m.m_index_level2 0 m.m_index_level2.length k - 1) ∧
      s ≤ m.m_index_level1.length ∧
      toSizeT ((m.m_index_level1.length : Int) - (s : Int)) = m.m_index_level1.length - s ∧
      e = s + min (m.m_index_level1.length - s) 256 ∧
      s ≤ f ∧ f ≤ e ∧ e ≤ m.m_index_level1.length ∧
      (f = m.m_index_level1.length → FindIndexed m k = some (End m)) ∧
      (f < m.m_index_level1.length →
        ∃ x it, m.m_index_level1[f]? = some x ∧ m.m_index_iter[f]? = some it ∧
          FindIndexed m k = some (if x ≠ k then End m else it)) := by
  obtain ⟨j, f, -, hj, -, -, hsec, hsn, hsub, hsf, hfe, -, -⟩ := FindSection_char m k hs h2 hsz
  have hfind := FindIndexed_of_FindSection m k _ _ f hsec
  refine ⟨_, _, f, hsec, by rw [hj], hsn, hsub, rfl, hsf, hfe, by omega, ?_, ?_⟩
  · intro hfn
    rw [hfind, if_pos hfn]
  · intro hfn
    have hfi : f < m.m_index_iter.length := by omega
    refine ⟨m.m_index_level1[f], m.m_index_iter[f], List.getElem?_eq_getElem hfn,
      List.getElem?_eq_getElem hfi, ?_⟩
    rw [hfind, if_neg (Nat.ne_of_lt hfn), List.getElem?_eq_getElem hfn,
      List.getElem?_eq_getElem hfi]
    by_cases hx : m.m_index_level1[f] = k <;> simp [hx]

/-- Witness of C20 on `sampleIndex`, for the key 600 above all stored keys. -/
theorem C20_find_indexed_stays_in_bounds_witness :
    ∃ s e f, FindSection sampleIndex 600 = some (s, e, f) ∧
      s ≤ sampleIndex.m_index_level1.length ∧ s ≤ f ∧ f ≤ e ∧
      e ≤ sampleIndex.m_index_level1.length := by
  obtain ⟨s, e, f, h1, -, h3, -, -, h6, h7, h8, -⟩ :=
    C20_find_indexed_stays_in_bounds sampleIndex sampleIndex_sorted sampleIndex_iter_length
      sampleIndex_sampled (by rw [sampleIndex_length]; omega) 600
  exact ⟨s, e, f, h1, h3, h6, h7, h8⟩

end Claims

end BkIdx
